import Mathlib

/-!
Shallow embedding of the price-comparison extension's core subsystems:
the two `PerformanceCache` classes (content script, `src/unnamed/part_000`,
and background, `src/unnamed/part_001`), the comparison engine
`processAndCompare`, the `fetchPrices` message handler, the fuzzy search
scoring with Persian-variant normalization, the cached search pipeline
with its in-place sorting, and the vendor decoration pass.

JS `Map` objects are modelled as association lists in insertion order
(head of the list = oldest entry, tail = most recently inserted), and
`Date.now()` timestamps are explicit `Nat` arguments.
-/

/-- First value bound to `key`, mirroring `Map.prototype.get`. -/
def findVal {K V : Type} [DecidableEq K] : List (K × V) → K → Option V
  | [], _ => none
  | (k, v) :: rest, key => if k = key then some v else findVal rest key

/-- Removal of the entry keyed `key`, mirroring `Map.prototype.delete`. -/
def eraseKey {K V : Type} [DecidableEq K] : List (K × V) → K → List (K × V)
  | [], _ => []
  | (k, v) :: rest, key => if k = key then rest else (k, v) :: eraseKey rest key

/-- `Map.prototype.set`: update the value in place if the key is present
(keeping its position in insertion order), otherwise append at the tail. -/
def mapSet {K V : Type} [DecidableEq K] : List (K × V) → K → V → List (K × V)
  | [], key, v => [(key, v)]
  | (k, w) :: rest, key, v =>
      if k = key then (key, v) :: rest else (k, w) :: mapSet rest key v

/-- Content-script `PerformanceCache` (src/unnamed/part_000 lines 17-65).
The class stores raw values: it has no TTL field, and its `get` never
consults the clock, so the embedding takes no timestamp anywhere. -/
structure Cache0 (K V : Type) where
  cache : List (K × V)
  maxSize : Nat
  hitCount : Nat
  missCount : Nat

/-- `new PerformanceCache(maxSize)` of the content script. -/
def emptyCache0 (K V : Type) (maxSize : Nat) : Cache0 K V :=
  { cache := [], maxSize := maxSize, hitCount := 0, missCount := 0 }

/-- Content-script `get`: on a present key, count a hit and move the entry
to the tail (delete + re-set); otherwise count a miss.  There is no expiry
check and no removal on access. -/
def get0 {K V : Type} [DecidableEq K] (c : Cache0 K V) (k : K) :
    Option V × Cache0 K V :=
  match findVal c.cache k with
  | some v =>
      (some v, { c with cache := eraseKey c.cache k ++ [(k, v)],
                        hitCount := c.hitCount + 1 })
  | none => (none, { c with missCount := c.missCount + 1 })

/-- Content-script `set`: a present key is deleted and re-appended (moved
to the tail); a new key at capacity first evicts the insertion-order head
(`cache.keys().next().value`); then the entry is appended. -/
def set0 {K V : Type} [DecidableEq K] (c : Cache0 K V) (k : K) (v : V) :
    Cache0 K V :=
  if (findVal c.cache k).isSome then
    { c with cache := eraseKey c.cache k ++ [(k, v)] }
  else if c.maxSize ≤ c.cache.length then
    { c with cache := c.cache.tail ++ [(k, v)] }
  else
    { c with cache := c.cache ++ [(k, v)] }

/-- Content-script `clear`. -/
def clear0 {K V : Type} (c : Cache0 K V) : Cache0 K V :=
  { c with cache := [], hitCount := 0, missCount := 0 }

/-- Entry of the background `PerformanceCache`
(src/unnamed/part_001 lines 389-393). -/
structure CacheItem (V : Type) where
  data : V
  expiry : Nat
  created : Nat
deriving DecidableEq

/-- Background `PerformanceCache` (src/unnamed/part_001 lines 350-437). -/
structure Cache1 (K V : Type) where
  cache : List (K × CacheItem V)
  maxSize : Nat
  ttl : Nat
  hitCount : Nat
  missCount : Nat

/-- `new PerformanceCache(maxSize, ttlMs)` of the background script. -/
def emptyCache1 (K V : Type) (maxSize ttl : Nat) : Cache1 K V :=
  { cache := [], maxSize := maxSize, ttl := ttl, hitCount := 0, missCount := 0 }

/-- Background `get` at time `now`: a present, unexpired entry counts a hit
and is moved to the tail; a present expired entry is removed and counts a
miss; an absent key counts a miss. -/
def get1 {K V : Type} [DecidableEq K] (c : Cache1 K V) (k : K) (now : Nat) :
    Option V × Cache1 K V :=
  match findVal c.cache k with
  | some item =>
      if now < item.expiry then
        (some item.data,
         { c with cache := eraseKey c.cache k ++ [(k, item)],
                  hitCount := c.hitCount + 1 })
      else
        (none, { c with cache := eraseKey c.cache k,
                        missCount := c.missCount + 1 })
  | none => (none, { c with missCount := c.missCount + 1 })

/-- Background `set` at time `now`: when at capacity and the key is absent,
evict the insertion-order head; then `Map.set` the entry, which updates a
present key in place (keeping its position) and appends a new key. -/
def set1 {K V : Type} [DecidableEq K] (c : Cache1 K V) (k : K) (v : V)
    (now : Nat) : Cache1 K V :=
  let base :=
    if c.maxSize ≤ c.cache.length ∧ (findVal c.cache k).isNone then
      c.cache.tail
    else c.cache
  { c with cache := mapSet base k { data := v, expiry := now + c.ttl, created := now } }

/-- Background `cleanup`: full sweep removing every expired entry. -/
def cleanup1 {K V : Type} (c : Cache1 K V) (now : Nat) : Nat × Cache1 K V :=
  let kept := c.cache.filter (fun e => decide (now < e.2.expiry))
  (c.cache.length - kept.length, { c with cache := kept })

theorem emptyCache0_cache (K V : Type) (n : Nat) :
    (emptyCache0 K V n).cache = [] := rfl

theorem emptyCache0_maxSize (K V : Type) (n : Nat) :
    (emptyCache0 K V n).maxSize = n := rfl

theorem emptyCache1_cache (K V : Type) (n t : Nat) :
    (emptyCache1 K V n t).cache = [] := rfl

theorem emptyCache1_maxSize (K V : Type) (n t : Nat) :
    (emptyCache1 K V n t).maxSize = n := rfl

theorem emptyCache1_ttl (K V : Type) (n t : Nat) :
    (emptyCache1 K V n t).ttl = t := rfl

theorem findVal_append {K V : Type} [DecidableEq K] (l₁ l₂ : List (K × V)) (k : K) :
    findVal (l₁ ++ l₂) k =
      (match findVal l₁ k with
       | some v => some v
       | none => findVal l₂ k) := by
  induction l₁ with
  | nil => simp [findVal]
  | cons e rest ih =>
      obtain ⟨k', v'⟩ := e
      by_cases h : k' = k <;> simp [findVal, h, ih]

theorem findVal_eraseKey_ne {K V : Type} [DecidableEq K] (l : List (K × V))
    {k k' : K} (h : k' ≠ k) : findVal (eraseKey l k) k' = findVal l k' := by
  induction l with
  | nil => simp [eraseKey]
  | cons e rest ih =>
      obtain ⟨k₀, v₀⟩ := e
      by_cases h₀ : k₀ = k
      · subst h₀
        simp [eraseKey, findVal, Ne.symm h]
      · simp [eraseKey, findVal, h₀, ih]

theorem eraseKey_sublist {K V : Type} [DecidableEq K] (l : List (K × V)) (k : K) :
    (eraseKey l k).Sublist l := by
  induction l with
  | nil => simp [eraseKey]
  | cons e rest ih =>
      obtain ⟨k₀, v₀⟩ := e
      by_cases h : k₀ = k
      · simp [eraseKey, h, List.sublist_cons_self (k₀, v₀) rest]
      · simpa [eraseKey, h] using List.Sublist.cons₂ (k₀, v₀) ih

theorem findVal_eq_none_of_not_mem {K V : Type} [DecidableEq K]
    {l : List (K × V)} {k : K} (h : k ∉ l.map Prod.fst) : findVal l k = none := by
  induction l with
  | nil => simp [findVal]
  | cons e rest ih =>
      obtain ⟨k₀, v₀⟩ := e
      simp only [List.map_cons, List.mem_cons] at h
      push_neg at h
      simp [findVal, Ne.symm h.1, ih h.2]

theorem mem_of_findVal_eq_some {K V : Type} [DecidableEq K]
    {l : List (K × V)} {k : K} {v : V} (h : findVal l k = some v) :
    k ∈ l.map Prod.fst := by
  induction l with
  | nil => simp [findVal] at h
  | cons e rest ih =>
      obtain ⟨k₀, v₀⟩ := e
      by_cases h₀ : k₀ = k
      · simp [h₀]
      · simp only [findVal, h₀, if_false] at h
        simp [ih h]

theorem findVal_eraseKey_self {K V : Type} [DecidableEq K]
    {l : List (K × V)} (hnd : (l.map Prod.fst).Nodup) (k : K) :
    findVal (eraseKey l k) k = none := by
  induction l with
  | nil => simp [eraseKey, findVal]
  | cons e rest ih =>
      obtain ⟨k₀, v₀⟩ := e
      simp only [List.map_cons, List.nodup_cons] at hnd
      by_cases h : k₀ = k
      · subst h
        simpa [eraseKey] using findVal_eq_none_of_not_mem hnd.1
      · simp [eraseKey, findVal, h, ih hnd.2]

theorem findVal_mapSet_self {K V : Type} [DecidableEq K]
    (l : List (K × V)) (k : K) (v : V) : findVal (mapSet l k v) k = some v := by
  induction l with
  | nil => simp [mapSet, findVal]
  | cons e rest ih =>
      obtain ⟨k₀, v₀⟩ := e
      by_cases h : k₀ = k <;> simp [mapSet, findVal, h, ih]

theorem findVal_mapSet_ne {K V : Type} [DecidableEq K]
    (l : List (K × V)) {k k' : K} (v : V) (h : k' ≠ k) :
    findVal (mapSet l k v) k' = findVal l k' := by
  induction l with
  | nil => simp [mapSet, findVal, Ne.symm h]
  | cons e rest ih =>
      obtain ⟨k₀, v₀⟩ := e
      by_cases h₀ : k₀ = k
      · subst h₀
        simp [mapSet, findVal, Ne.symm h]
      · simp [mapSet, findVal, h₀, ih]

theorem mapSet_keys_of_present {K V : Type} [DecidableEq K]
    {l : List (K × V)} {k : K} {w : V} (h : findVal l k = some w) (v : V) :
    (mapSet l k v).map Prod.fst = l.map Prod.fst := by
  induction l with
  | nil => simp [findVal] at h
  | cons e rest ih =>
      obtain ⟨k₀, v₀⟩ := e
      by_cases h₀ : k₀ = k
      · subst h₀
        simp [mapSet]
      · simp only [findVal, h₀, if_false] at h
        simp [mapSet, h₀, ih h]

theorem mapSet_of_absent {K V : Type} [DecidableEq K]
    {l : List (K × V)} {k : K} (h : findVal l k = none) (v : V) :
    mapSet l k v = l ++ [(k, v)] := by
  induction l with
  | nil => simp [mapSet]
  | cons e rest ih =>
      obtain ⟨k₀, v₀⟩ := e
      by_cases h₀ : k₀ = k
      · simp [findVal, h₀] at h
      · simp only [findVal, h₀, if_false] at h
        simp [mapSet, h₀, ih h]

theorem findVal_tail_eq_none {K V : Type} [DecidableEq K]
    {l : List (K × V)} {k : K} (h : findVal l k = none) :
    findVal l.tail k = none := by
  cases l with
  | nil => simp [findVal]
  | cons e rest =>
      obtain ⟨k₀, v₀⟩ := e
      by_cases h₀ : k₀ = k <;> simp_all [findVal, h₀]

/-- C10: the content-script `PerformanceCache` (used for `state.ratingCache`
and `state.searchCache`) performs no time-based expiry: `get` on any stored
key returns the stored value and counts a hit, leaves the miss counter
alone, and removes nothing — the embedded `get0`, like the source `get`,
never takes a timestamp, and the key set before and after `get0` is the
same. -/
theorem contentCache_get_no_expiry {K V : Type} [DecidableEq K]
    (c : Cache0 K V) (k : K) (v : V) (h : findVal c.cache k = some v) :
    (get0 c k).1 = some v ∧
    (get0 c k).2.hitCount = c.hitCount + 1 ∧
    (get0 c k).2.missCount = c.missCount ∧
    (∀ k' : K, (findVal (get0 c k).2.cache k').isSome
        ↔ (findVal c.cache k').isSome) := by
  refine ⟨by simp [get0, h], by simp [get0, h], by simp [get0, h], ?_⟩
  intro k'
  simp only [get0, h]
  rw [findVal_append]
  by_cases hk : k' = k
  · subst hk
    cases hfe : findVal (eraseKey c.cache k') k' <;> simp [findVal, h]
  · rw [findVal_eraseKey_ne _ hk]
    cases hfe : findVal c.cache k' <;> simp [findVal, Ne.symm hk]

/-- Witness for C10 at a concrete single-entry cache. -/
theorem contentCache_get_no_expiry_witness :
    (get0 (Cache0.mk [(1, 5)] 2 0 0) 1).1 = some 5 ∧
    (get0 (Cache0.mk [(1, 5)] 2 0 0) 1).2.hitCount = 0 + 1 ∧
    (get0 (Cache0.mk [(1, 5)] 2 0 0) 1).2.missCount = 0 ∧
    (∀ k' : Nat, (findVal (get0 (Cache0.mk [(1, 5)] 2 0 0) 1).2.cache k').isSome
        ↔ (findVal [(1, 5)] k').isSome) :=
  contentCache_get_no_expiry (Cache0.mk [(1, 5)] 2 0 0) 1 5 (by decide)

/-- Folding a list of insertions into the content-script cache. -/
def insertAll0 {K V : Type} [DecidableEq K] (c : Cache0 K V)
    (kvs : List (K × V)) : Cache0 K V :=
  kvs.foldl (fun c kv => set0 c kv.1 kv.2) c

/-- Folding a list of insertions into the background cache at time `now`. -/
def insertAll1 {K V : Type} [DecidableEq K] (c : Cache1 K V)
    (kvs : List (K × V)) (now : Nat) : Cache1 K V :=
  kvs.foldl (fun c kv => set1 c kv.1 kv.2 now) c

/-- The recency order the spec's discipline would maintain: every touch
(get or set) moves the touched key to the tail, head = least recently used. -/
def touchedOrder (ops : List Nat) : List Nat :=
  ops.foldl (fun ks k => ks.erase k ++ [k]) []

theorem insertAll0_fill {K V : Type} [DecidableEq K] :
    ∀ (kvs : List (K × V)) (c : Cache0 K V),
      (∀ k ∈ kvs.map Prod.fst, findVal c.cache k = none) →
      (kvs.map Prod.fst).Nodup →
      c.cache.length + kvs.length ≤ c.maxSize →
      (insertAll0 c kvs).cache = c.cache ++ kvs ∧
      (insertAll0 c kvs).maxSize = c.maxSize := by
  intro kvs
  induction kvs with
  | nil => intro c _ _ _; simp [insertAll0]
  | cons kv rest ih =>
      intro c habs hnd hlen
      obtain ⟨k, v⟩ := kv
      have hk : findVal c.cache k = none := habs k (by simp)
      have hcap : ¬c.maxSize ≤ c.cache.length := by
        simp only [List.length_cons] at hlen
        omega
      have hstep : set0 c k v =
          { c with cache := c.cache ++ [(k, v)] } := by
        simp [set0, hk, hcap]
      have hrest :
          (insertAll0 { c with cache := c.cache ++ [(k, v)] } rest).cache
              = (c.cache ++ [(k, v)]) ++ rest ∧
          (insertAll0 { c with cache := c.cache ++ [(k, v)] } rest).maxSize
              = c.maxSize := by
        apply ih
        · intro k' hk'
          rw [findVal_append]
          have hne : k' ≠ k := by
            simp only [List.map_cons, List.nodup_cons] at hnd
            intro he; exact hnd.1 (he ▸ hk')
          rw [habs k' (by simp [hk'])]
          simp [findVal, Ne.symm hne]
        · simp only [List.map_cons, List.nodup_cons] at hnd
          exact hnd.2
        · simp only [List.length_append, List.length_cons, List.length_nil] at hlen ⊢
          omega
      have : insertAll0 c ((k, v) :: rest)
          = insertAll0 { c with cache := c.cache ++ [(k, v)] } rest := by
        simp [insertAll0, hstep]
      rw [this]
      refine ⟨?_, hrest.2⟩
      rw [hrest.1]
      simp

theorem insertAll1_fill {K V : Type} [DecidableEq K] :
    ∀ (kvs : List (K × V)) (c : Cache1 K V) (now : Nat),
      (∀ k ∈ kvs.map Prod.fst, findVal c.cache k = none) →
      (kvs.map Prod.fst).Nodup →
      c.cache.length + kvs.length ≤ c.maxSize →
      (insertAll1 c kvs now).cache
          = c.cache ++ kvs.map (fun kv => (kv.1, CacheItem.mk kv.2 (now + c.ttl) now)) ∧
      (insertAll1 c kvs now).maxSize = c.maxSize ∧
      (insertAll1 c kvs now).ttl = c.ttl := by
  intro kvs
  induction kvs with
  | nil => intro c now _ _ _; simp [insertAll1]
  | cons kv rest ih =>
      intro c now habs hnd hlen
      obtain ⟨k, v⟩ := kv
      have hk : findVal c.cache k = none := habs k (by simp)
      have hcap : ¬(c.maxSize ≤ c.cache.length ∧ (findVal c.cache k).isNone) := by
        simp only [List.length_cons] at hlen
        intro hc
        omega
      have hstep : set1 c k v now =
          { c with cache := c.cache ++ [(k, CacheItem.mk v (now + c.ttl) now)] } := by
        simp only [set1, if_neg hcap]
        rw [mapSet_of_absent hk]
      have hrest := ih { c with cache := c.cache ++ [(k, CacheItem.mk v (now + c.ttl) now)] } now
        (by
          intro k' hk'
          rw [findVal_append]
          have hne : k' ≠ k := by
            simp only [List.map_cons, List.nodup_cons] at hnd
            intro he; exact hnd.1 (he ▸ hk')
          rw [habs k' (by simp [hk'])]
          simp [findVal, Ne.symm hne])
        (by
          simp only [List.map_cons, List.nodup_cons] at hnd
          exact hnd.2)
        (by
          simp only [List.length_append, List.length_cons, List.length_nil] at hlen ⊢
          omega)
      have hfold : insertAll1 c ((k, v) :: rest) now
          = insertAll1 { c with cache := c.cache ++ [(k, CacheItem.mk v (now + c.ttl) now)] } rest now := by
        simp [insertAll1, hstep]
      rw [hfold]
      refine ⟨?_, hrest.2.1, hrest.2.2⟩
      rw [hrest.1]
      simp

theorem insertDistinct0_evicts_head {K V : Type} [DecidableEq K]
    (n : Nat) (kvs : List (K × V)) (hn : 1 ≤ n) (hlen : kvs.length = n + 1)
    (hnd : (kvs.map Prod.fst).Nodup) :
    (insertAll0 (emptyCache0 K V n) kvs).cache = kvs.tail := by
  have hne : kvs ≠ [] := by intro h; subst h; simp at hlen
  obtain ⟨init, last, rfl⟩ : ∃ init last, kvs = init ++ [last] :=
    ⟨kvs.dropLast, kvs.getLast hne, (kvs.dropLast_append_getLast hne).symm⟩
  have hinit : init.length = n := by
    simp only [List.length_append, List.length_cons, List.length_nil] at hlen
    omega
  have hnd' : (init.map Prod.fst).Nodup ∧ last.1 ∉ init.map Prod.fst := by
    simp only [List.map_append, List.map_cons, List.map_nil,
      List.nodup_append] at hnd
    exact ⟨hnd.1, fun hmem => hnd.2.2 hmem (by simp)⟩
  have hfill := insertAll0_fill init (emptyCache0 K V n)
    (by intro k _; simp [emptyCache0_cache, findVal]) hnd'.1
    (by simp [emptyCache0_cache, emptyCache0_maxSize]; omega)
  have hcache : (insertAll0 (emptyCache0 K V n) init).cache = init := by
    simpa [emptyCache0] using hfill.1
  have hmax : (insertAll0 (emptyCache0 K V n) init).maxSize = n := by
    simpa [emptyCache0] using hfill.2
  have hsplit : insertAll0 (emptyCache0 K V n) (init ++ [last])
      = set0 (insertAll0 (emptyCache0 K V n) init) last.1 last.2 := by
    simp [insertAll0, List.foldl_append]
  rw [hsplit]
  have habs : findVal (insertAll0 (emptyCache0 K V n) init).cache last.1 = none := by
    rw [hcache]; exact findVal_eq_none_of_not_mem hnd'.2
  simp only [set0, habs, Option.isSome_none, Bool.false_eq_true, if_false]
  rw [if_pos (by rw [hmax, hcache]; omega), hcache]
  cases init with
  | nil => simp at hinit; omega
  | cons e rest => simp

theorem insertDistinct1_evicts_head {K V : Type} [DecidableEq K]
    (n ttl now : Nat) (kvs : List (K × V)) (hn : 1 ≤ n)
    (hlen : kvs.length = n + 1) (hnd : (kvs.map Prod.fst).Nodup) :
    (insertAll1 (emptyCache1 K V n ttl) kvs now).cache
      = kvs.tail.map (fun kv => (kv.1, CacheItem.mk kv.2 (now + ttl) now)) := by
  have hne : kvs ≠ [] := by intro h; subst h; simp at hlen
  obtain ⟨init, last, rfl⟩ : ∃ init last, kvs = init ++ [last] :=
    ⟨kvs.dropLast, kvs.getLast hne, (kvs.dropLast_append_getLast hne).symm⟩
  have hinit : init.length = n := by
    simp only [List.length_append, List.length_cons, List.length_nil] at hlen
    omega
  have hnd' : (init.map Prod.fst).Nodup ∧ last.1 ∉ init.map Prod.fst := by
    simp only [List.map_append, List.map_cons, List.map_nil,
      List.nodup_append] at hnd
    exact ⟨hnd.1, fun hmem => hnd.2.2 hmem (by simp)⟩
  have hfill := insertAll1_fill init (emptyCache1 K V n ttl) now
    (by intro k _; simp [emptyCache1_cache, findVal]) hnd'.1
    (by simp [emptyCache1_cache, emptyCache1_maxSize]; omega)
  have httl : (insertAll1 (emptyCache1 K V n ttl) init now).ttl = ttl := by
    simpa [emptyCache1] using hfill.2.2
  have hcache : (insertAll1 (emptyCache1 K V n ttl) init now).cache
      = init.map (fun kv => (kv.1, CacheItem.mk kv.2 (now + ttl) now)) := by
    simpa [emptyCache1] using hfill.1
  have hmax : (insertAll1 (emptyCache1 K V n ttl) init now).maxSize = n := by
    simpa [emptyCache1] using hfill.2.1
  have hsplit : insertAll1 (emptyCache1 K V n ttl) (init ++ [last]) now
      = set1 (insertAll1 (emptyCache1 K V n ttl) init now) last.1 last.2 now := by
    simp [insertAll1, List.foldl_append]
  rw [hsplit]
  have habs : findVal (insertAll1 (emptyCache1 K V n ttl) init now).cache last.1
      = none := by
    rw [hcache]
    apply findVal_eq_none_of_not_mem
    intro hmem
    apply hnd'.2
    simpa using hmem
  have hcap : (insertAll1 (emptyCache1 K V n ttl) init now).maxSize
      ≤ (insertAll1 (emptyCache1 K V n ttl) init now).cache.length := by
    rw [hmax, hcache]; simp [hinit]
  have hcond : (insertAll1 (emptyCache1 K V n ttl) init now).maxSize
        ≤ (insertAll1 (emptyCache1 K V n ttl) init now).cache.length ∧
      (findVal (insertAll1 (emptyCache1 K V n ttl) init now).cache last.1).isNone
        = true := ⟨hcap, by simp [habs]⟩
  simp only [set1, if_pos hcond]
  rw [mapSet_of_absent (findVal_tail_eq_none habs), httl, hcache]
  cases init with
  | nil => simp at hinit; omega
  | cons e rest => simp

/-- C2 (amended): in the content-script cache both `get` and `set` move the
touched entry to the tail and a `set` at capacity with a new key evicts the
insertion-order head; in the background cache only `get` moves entries to
the tail — `set` on a present key updates it in place, keeping its position
— while a `set` at capacity with a new key likewise evicts the
insertion-order head.  In both caches, inserting `N + 1` distinct keys
(capacity `N ≥ 1`) with no intervening `get` evicts exactly the
first-inserted key and no other. -/
theorem lru_eviction_amended {K V : Type} [DecidableEq K] :
    (∀ (c : Cache0 K V) (k : K) (v : V),
        findVal c.cache k = none → c.maxSize ≤ c.cache.length →
        (set0 c k v).cache = c.cache.tail ++ [(k, v)]) ∧
    (∀ (c : Cache0 K V) (k : K) (v w : V),
        findVal c.cache k = some w →
        (set0 c k v).cache = eraseKey c.cache k ++ [(k, v)]) ∧
    (∀ (c : Cache0 K V) (k : K) (v : V),
        findVal c.cache k = some v →
        (get0 c k).2.cache = eraseKey c.cache k ++ [(k, v)]) ∧
    (∀ (c : Cache1 K V) (k : K) (v : V) (now : Nat) (it : CacheItem V),
        findVal c.cache k = some it →
        (set1 c k v now).cache.map Prod.fst = c.cache.map Prod.fst) ∧
    (∀ (c : Cache1 K V) (k : K) (v : V) (now : Nat),
        findVal c.cache k = none → c.maxSize ≤ c.cache.length →
        (set1 c k v now).cache
          = c.cache.tail ++ [(k, CacheItem.mk v (now + c.ttl) now)]) ∧
    (∀ (n : Nat) (kvs : List (K × V)), 1 ≤ n → kvs.length = n + 1 →
        (kvs.map Prod.fst).Nodup →
        (insertAll0 (emptyCache0 K V n) kvs).cache = kvs.tail) ∧
    (∀ (n ttl now : Nat) (kvs : List (K × V)), 1 ≤ n → kvs.length = n + 1 →
        (kvs.map Prod.fst).Nodup →
        (insertAll1 (emptyCache1 K V n ttl) kvs now).cache
          = kvs.tail.map (fun kv => (kv.1, CacheItem.mk kv.2 (now + ttl) now))) := by
  refine ⟨?_, ?_, ?_, ?_, ?_, ?_, ?_⟩
  · intro c k v h hcap
    simp [set0, h, hcap]
  · intro c k v w h
    simp [set0, h]
  · intro c k v h
    simp [get0, h]
  · intro c k v now it h
    have hcond : ¬(c.maxSize ≤ c.cache.length ∧
        (findVal c.cache k).isNone = true) := by
      intro hc
      rw [h] at hc
      simp at hc
    simp only [set1, if_neg hcond]
    exact mapSet_keys_of_present h _
  · intro c k v now h hcap
    have hcond : c.maxSize ≤ c.cache.length ∧
        (findVal c.cache k).isNone = true := ⟨hcap, by simp [h]⟩
    simp only [set1, if_pos hcond]
    exact mapSet_of_absent (findVal_tail_eq_none h) _
  · intro n kvs hn hlen hnd
    exact insertDistinct0_evicts_head n kvs hn hlen hnd
  · intro n ttl now kvs hn hlen hnd
    exact insertDistinct1_evicts_head n ttl now kvs hn hlen hnd

/-- Witness for C2 (amended): capacity 2, three distinct insertions into
each cache evict exactly the first-inserted key. -/
theorem lru_eviction_amended_witness :
    (insertAll0 (emptyCache0 Nat Nat 2) [(1, 10), (2, 20), (3, 30)]).cache
        = [(2, 20), (3, 30)] ∧
    (insertAll1 (emptyCache1 Nat Nat 2 1000) [(1, 10), (2, 20), (3, 30)] 0).cache
        = [(2, CacheItem.mk 20 1000 0), (3, CacheItem.mk 30 1000 0)] :=
  ⟨(lru_eviction_amended.2.2.2.2.2.1) 2 [(1, 10), (2, 20), (3, 30)]
      (by decide) (by decide) (by decide),
   (lru_eviction_amended.2.2.2.2.2.2) 2 1000 0 [(1, 10), (2, 20), (3, 30)]
      (by decide) (by decide) (by decide)⟩

/-- C2 counterexample: the claim reads every `set` as moving the touched
entry to the tail of the recency order, so after `set 1, set 2, set 1` on
the background cache (capacity 2) the claimed order is `[2, 1]` — computed
here by `touchedOrder` — and the claimed victim of `set 3` is key `2`.
The code's `set` on a present key does not move it: the fourth `set`
evicts key `1` and keeps key `2`. -/
theorem lru_eviction_counterexample :
    touchedOrder [1, 2, 1] = [2, 1] ∧
    (set1 (set1 (set1 (set1 (emptyCache1 Nat Nat 2 1000) 1 10 0) 2 20 0)
        1 30 0) 3 40 0).cache.map Prod.fst = [2, 3] := by
  constructor
  · rfl
  · rfl

/-- C3 (amended): in the background TTL cache, a `set` at time `t0` stores
the value with expiry `t0 + T`; a `get` on a present entry before its
expiry returns the last value set for the key and increments the hit
counter, leaving the miss counter alone and keeping the key stored; a
`get` on a present entry at or after its expiry returns absent, removes
the entry, and increments the miss counter, never the hit counter.  (The
original guard "before `N` other distinct keys were inserted after it" is
not sufficient to keep the key stored: an entry inserted earlier can be
refreshed by `get` and outlive the key, see the counterexample.) -/
theorem ttl_get_amended {K V : Type} [DecidableEq K] :
    (∀ (c : Cache1 K V) (k : K) (v : V) (t0 : Nat),
        findVal (set1 c k v t0).cache k = some (CacheItem.mk v (t0 + c.ttl) t0)) ∧
    (∀ (c : Cache1 K V) (k : K) (it : CacheItem V) (t : Nat),
        (c.cache.map Prod.fst).Nodup →
        findVal c.cache k = some it → t < it.expiry →
        (get1 c k t).1 = some it.data ∧
        (get1 c k t).2.hitCount = c.hitCount + 1 ∧
        (get1 c k t).2.missCount = c.missCount ∧
        findVal (get1 c k t).2.cache k = some it) ∧
    (∀ (c : Cache1 K V) (k : K) (it : CacheItem V) (t : Nat),
        (c.cache.map Prod.fst).Nodup →
        findVal c.cache k = some it → it.expiry ≤ t →
        (get1 c k t).1 = none ∧
        (get1 c k t).2.missCount = c.missCount + 1 ∧
        (get1 c k t).2.hitCount = c.hitCount ∧
        findVal (get1 c k t).2.cache k = none) := by
  refine ⟨?_, ?_, ?_⟩
  · intro c k v t0
    simp only [set1]
    exact findVal_mapSet_self _ _ _
  · intro c k it t hnd h ht
    refine ⟨by simp [get1, h, ht], by simp [get1, h, ht], by simp [get1, h, ht], ?_⟩
    simp only [get1, h, if_pos ht]
    rw [findVal_append, findVal_eraseKey_self hnd]
    simp [findVal]
  · intro c k it t hnd h ht
    have hlt : ¬t < it.expiry := by omega
    refine ⟨by simp [get1, h, hlt], by simp [get1, h, hlt],
      by simp [get1, h, hlt], ?_⟩
    simp only [get1, h, if_neg hlt]
    exact findVal_eraseKey_self hnd k

/-- Witness for C3 (amended) on a concrete one-entry cache with TTL 1000:
a hit just before expiry, a removal-and-miss at expiry. -/
theorem ttl_get_amended_witness :
    (findVal (set1 (emptyCache1 Nat Nat 2 1000) 7 5 0).cache 7
        = some (CacheItem.mk 5 (0 + 1000) 0)) ∧
    ((get1 (Cache1.mk [(7, CacheItem.mk 5 1000 0)] 2 1000 0 0) 7 999).1
        = some 5) ∧
    ((get1 (Cache1.mk [(7, CacheItem.mk 5 1000 0)] 2 1000 0 0) 7 1000).1
        = none) ∧
    (findVal (get1 (Cache1.mk [(7, CacheItem.mk 5 1000 0)] 2 1000 0 0)
        7 1000).2.cache 7 = none) :=
  ⟨ttl_get_amended.1 (emptyCache1 Nat Nat 2 1000) 7 5 0,
   (ttl_get_amended.2.1 (Cache1.mk [(7, CacheItem.mk 5 1000 0)] 2 1000 0 0)
      7 (CacheItem.mk 5 1000 0) 999 (by decide) (by decide) (by decide)).1,
   (ttl_get_amended.2.2 (Cache1.mk [(7, CacheItem.mk 5 1000 0)] 2 1000 0 0)
      7 (CacheItem.mk 5 1000 0) 1000 (by decide) (by decide) (by decide)).1,
   (ttl_get_amended.2.2 (Cache1.mk [(7, CacheItem.mk 5 1000 0)] 2 1000 0 0)
      7 (CacheItem.mk 5 1000 0) 1000 (by decide) (by decide) (by decide)).2.2.2⟩

/-- C3 counterexample: capacity `N = 2`, TTL 1000.  Key 20 is set at time
0; afterwards only ONE other distinct key (30) is ever inserted, and the
TTL has not elapsed at time 3 — the claim's guard ("before `T` elapsed and
before `N` other distinct keys were inserted after it") is satisfied — yet
`get 20` returns absent and counts a miss, because the earlier key 10 was
refreshed by a `get` (moving it to the tail) and the insertion of 30
evicted key 20 from the head. -/
theorem ttl_get_counterexample :
    (get1 (set1 ((get1 (set1 (set1 (emptyCache1 Nat Nat 2 1000) 10 100 0)
          20 200 0) 10 1).2) 30 300 2) 20 3).1 = none ∧
    (get1 (set1 ((get1 (set1 (set1 (emptyCache1 Nat Nat 2 1000) 10 100 0)
          20 200 0) 10 1).2) 30 300 2) 20 3).2.missCount = 1 ∧
    (get1 (set1 ((get1 (set1 (set1 (emptyCache1 Nat Nat 2 1000) 10 100 0)
          20 200 0) 10 1).2) 30 300 2) 20 3).2.hitCount = 1 := by
  refine ⟨rfl, rfl, rfl⟩

/-- Product record as built by the platform fetchers
(src/unnamed/part_001 lines 702-709 and 764-770); the fields not read by
any embedded operation (originalPrice, discount, discountRatio) are
omitted. -/
structure ProductR where
  name : List Char
  price : Int
deriving DecidableEq

/-- Comparison record (src/unnamed/part_001 lines 649-657). -/
structure CompR where
  baseProduct : ProductR
  counterpartProduct : ProductR
  priceDiff : Int
  percentDiff : Int
  isCheaper : Bool
  isMoreExpensive : Bool
  isSamePrice : Bool
deriving DecidableEq

/-- The record built for one mapped pair (src/unnamed/part_001 lines
646-657).  `Math.round` on the non-negative ratio is `round` on `ℚ`. -/
def mkComparison (bp cp : ProductR) : CompR :=
  let priceDiff := bp.price - cp.price
  { baseProduct := bp
    counterpartProduct := cp
    priceDiff := priceDiff
    percentDiff := round ((priceDiff.natAbs : ℚ) / (bp.price : ℚ) * 100)
    isCheaper := decide (0 < priceDiff)
    isMoreExpensive := decide (priceDiff < 0)
    isSamePrice := decide (priceDiff = 0) }

/-- One iteration of the `processAndCompare` loop (src/unnamed/part_001
lines 634-662).  The `if (counterpartId)` truthiness test makes a mapped
counterpart id of `0` fall through with no record. -/
def compareOne (counterpartProducts : List (Nat × ProductR))
    (itemMappings : List (Nat × Nat)) (entry : Nat × ProductR) :
    Option (Nat × CompR) :=
  match findVal itemMappings entry.1 with
  | some counterpartId =>
      if counterpartId ≠ 0 then
        match findVal counterpartProducts counterpartId with
        | some counterpartProduct =>
            if 0 < entry.2.price then
              some (entry.1, mkComparison entry.2 counterpartProduct)
            else none
        | none => none
      else none
  | none => none

/-- `processAndCompare` (src/unnamed/part_001 lines 614-669).  The
chunked loop over `Object.keys(baseProducts)` is a plain traversal of the
base collection; chunk boundaries do not affect the result. -/
def processAndCompare (sfProducts tfProducts : List (Nat × ProductR))
    (sourcePlatform : String) (itemMappings : List (Nat × Nat)) :
    List (Nat × CompR) :=
  let baseProducts := if sourcePlatform = "snappfood" then sfProducts else tfProducts
  let counterpartProducts :=
    if sourcePlatform = "snappfood" then tfProducts else sfProducts
  baseProducts.filterMap (compareOne counterpartProducts itemMappings)

theorem findVal_filterMap_not_mem {K V W : Type} [DecidableEq K]
    (f : K × V → Option (K × W))
    (hf : ∀ e r, f e = some r → r.1 = e.1)
    {l : List (K × V)} {k : K} (h : k ∉ l.map Prod.fst) :
    findVal (l.filterMap f) k = none := by
  induction l with
  | nil => simp [findVal]
  | cons e rest ih =>
      simp only [List.map_cons, List.mem_cons] at h
      push_neg at h
      rw [List.filterMap_cons]
      cases hfe : f e with
      | none => exact ih h.2
      | some r =>
          have hr : r.1 = e.1 := hf e r hfe
          simp only [findVal]
          rw [if_neg (by rw [hr]; exact Ne.symm h.1)]
          exact ih h.2

theorem findVal_filterMap {K V W : Type} [DecidableEq K]
    (f : K × V → Option (K × W))
    (hf : ∀ e r, f e = some r → r.1 = e.1)
    {l : List (K × V)} (hnd : (l.map Prod.fst).Nodup) (k : K) :
    findVal (l.filterMap f) k
      = (findVal l k).bind (fun v => (f (k, v)).map Prod.snd) := by
  induction l with
  | nil => simp [findVal]
  | cons e rest ih =>
      obtain ⟨k₀, v₀⟩ := e
      simp only [List.map_cons, List.nodup_cons] at hnd
      rw [List.filterMap_cons]
      by_cases hk : k₀ = k
      · subst hk
        cases hfe : f (k₀, v₀) with
        | none =>
            rw [findVal_filterMap_not_mem f hf hnd.1]
            simp [findVal, hfe]
        | some r =>
            have hr : r.1 = k₀ := hf _ r hfe
            obtain ⟨rk, rw⟩ := r
            simp only at hr
            subst hr
            simp [findVal, hfe]
      · cases hfe : f (k₀, v₀) with
        | none =>
            rw [ih hnd.2]
            simp [findVal, hk]
        | some r =>
            have hr : r.1 = k₀ := hf _ r hfe
            simp only [findVal, hr]
            rw [if_neg hk, ih hnd.2]
            simp [findVal, hk]

theorem compareOne_key {ctr : List (Nat × ProductR)} {m : List (Nat × Nat)} :
    ∀ (e : Nat × ProductR) (r : Nat × CompR),
      compareOne ctr m e = some r → r.1 = e.1 := by
  intro e r h
  simp only [compareOne] at h
  split at h
  · split at h
    · split at h
      · split at h
        · cases h; rfl
        · cases h
      · cases h
    · cases h
  · cases h

theorem compareOne_eq_some {ctr : List (Nat × ProductR)} {m : List (Nat × Nat)}
    {e : Nat × ProductR} {cid : Nat} {cp : ProductR}
    (hm : findVal m e.1 = some cid) (h0 : cid ≠ 0)
    (hc : findVal ctr cid = some cp) (hp : 0 < e.2.price) :
    compareOne ctr m e = some (e.1, mkComparison e.2 cp) := by
  simp [compareOne, hm, h0, hc, hp]

theorem compareOne_some_iff {ctr : List (Nat × ProductR)} {m : List (Nat × Nat)}
    {e : Nat × ProductR} :
    (∃ r, compareOne ctr m e = some r)
      ↔ ∃ cid cp, findVal m e.1 = some cid ∧ cid ≠ 0 ∧
          findVal ctr cid = some cp ∧ 0 < e.2.price := by
  constructor
  · rintro ⟨r, h⟩
    simp only [compareOne] at h
    split at h
    · rename_i cid hm
      split at h
      · rename_i h0
        split at h
        · rename_i cp hc
          split at h
          · exact ⟨cid, cp, hm, h0, hc, by assumption⟩
          · cases h
        · cases h
      · rename_i h0
        cases h
    · cases h
  · rintro ⟨cid, cp, hm, h0, hc, hp⟩
    exact ⟨(e.1, mkComparison e.2 cp), compareOne_eq_some hm h0 hc hp⟩

theorem mkComparison_flags (bp cp : ProductR) :
    ((mkComparison bp cp).isCheaper = true ↔ 0 < (mkComparison bp cp).priceDiff) ∧
    ((mkComparison bp cp).isMoreExpensive = true
        ↔ (mkComparison bp cp).priceDiff < 0) ∧
    ((mkComparison bp cp).isSamePrice = true
        ↔ (mkComparison bp cp).priceDiff = 0) ∧
    ((mkComparison bp cp).isCheaper || (mkComparison bp cp).isMoreExpensive
        || (mkComparison bp cp).isSamePrice) = true ∧
    ¬((mkComparison bp cp).isCheaper = true
        ∧ (mkComparison bp cp).isMoreExpensive = true) ∧
    ¬((mkComparison bp cp).isCheaper = true
        ∧ (mkComparison bp cp).isSamePrice = true) ∧
    ¬((mkComparison bp cp).isMoreExpensive = true
        ∧ (mkComparison bp cp).isSamePrice = true) := by
  simp only [mkComparison, decide_eq_true_eq, Bool.or_eq_true]
  refine ⟨?_, ?_, ?_, ?_, ?_, ?_, ?_⟩
  all_goals first
    | trivial
    | omega

/-- C1 (amended): `processAndCompare` outputs a record for a `baseId`
exactly when the id mapping gives a NONZERO `counterpartId` that is
present in the counterpart collection and the base product's price is
positive (the source's `if (counterpartId)` truthiness test drops a mapped
counterpart id of `0`); in that record `priceDiff = basePrice -
counterpartPrice`, `percentDiff = round(|priceDiff| / basePrice * 100)`,
and `isCheaper`/`isMoreExpensive`/`isSamePrice` hold iff `priceDiff` is
respectively positive/negative/zero, mutually exclusively and
exhaustively; the scenario `compare({1:{price:100}}, {9:{price:80}},
{1:9})` yields `priceDiff = 20`, `percentDiff = 20`, `isCheaper = true`;
a non-positive base price yields no record. -/
theorem processAndCompare_spec :
    (∀ (sf tf : List (Nat × ProductR)) (sp : String) (m : List (Nat × Nat))
        (baseId : Nat),
        ((if sp = "snappfood" then sf else tf).map Prod.fst).Nodup →
        ((∃ r, findVal (processAndCompare sf tf sp m) baseId = some r)
          ↔ ∃ bp cid cp,
              findVal (if sp = "snappfood" then sf else tf) baseId = some bp ∧
              findVal m baseId = some cid ∧ cid ≠ 0 ∧
              findVal (if sp = "snappfood" then tf else sf) cid = some cp ∧
              0 < bp.price)) ∧
    (∀ (sf tf : List (Nat × ProductR)) (sp : String) (m : List (Nat × Nat))
        (baseId : Nat) (r : CompR) (bp cp : ProductR) (cid : Nat),
        ((if sp = "snappfood" then sf else tf).map Prod.fst).Nodup →
        findVal (processAndCompare sf tf sp m) baseId = some r →
        findVal (if sp = "snappfood" then sf else tf) baseId = some bp →
        findVal m baseId = some cid →
        findVal (if sp = "snappfood" then tf else sf) cid = some cp →
        r.baseProduct = bp ∧ r.counterpartProduct = cp ∧
        r.priceDiff = bp.price - cp.price ∧
        r.percentDiff = round ((((bp.price - cp.price).natAbs : ℚ)
            / (bp.price : ℚ)) * 100) ∧
        (r.isCheaper = true ↔ 0 < r.priceDiff) ∧
        (r.isMoreExpensive = true ↔ r.priceDiff < 0) ∧
        (r.isSamePrice = true ↔ r.priceDiff = 0) ∧
        (r.isCheaper || r.isMoreExpensive || r.isSamePrice) = true ∧
        ¬(r.isCheaper = true ∧ r.isMoreExpensive = true) ∧
        ¬(r.isCheaper = true ∧ r.isSamePrice = true) ∧
        ¬(r.isMoreExpensive = true ∧ r.isSamePrice = true)) ∧
    (findVal (processAndCompare [(1, ProductR.mk ['x'] 100)]
        [(9, ProductR.mk ['y'] 80)] "snappfood" [(1, 9)]) 1
      = some (mkComparison (ProductR.mk ['x'] 100) (ProductR.mk ['y'] 80)) ∧
     (mkComparison (ProductR.mk ['x'] 100) (ProductR.mk ['y'] 80)).priceDiff
        = 20 ∧
     (mkComparison (ProductR.mk ['x'] 100) (ProductR.mk ['y'] 80)).percentDiff
        = 20 ∧
     (mkComparison (ProductR.mk ['x'] 100) (ProductR.mk ['y'] 80)).isCheaper
        = true) := by
  refine ⟨?_, ?_, ?_, ?_, ?_, ?_⟩
  · intro sf tf sp m baseId hnd
    simp only [processAndCompare]
    rw [findVal_filterMap _ compareOne_key hnd]
    cases hb : findVal (if sp = "snappfood" then sf else tf) baseId with
    | none =>
        simp only [Option.bind]
        constructor
        · rintro ⟨r, hr⟩
          cases hr
        · rintro ⟨bp, cid, cp, hbp, _⟩
          cases hbp
    | some bp =>
        simp only [Option.bind]
        constructor
        · rintro ⟨r, hr⟩
          rcases Option.map_eq_some'.mp hr with ⟨r', hr', _⟩
          rcases compareOne_some_iff.mp ⟨r', hr'⟩ with ⟨cid, cp, hm, h0, hc, hp⟩
          exact ⟨bp, cid, cp, rfl, hm, h0, hc, hp⟩
        · rintro ⟨bp', cid, cp, hbp, hm, h0, hc, hp⟩
          cases hbp
          refine ⟨(mkComparison bp cp), ?_⟩
          rw [compareOne_eq_some hm h0 hc hp]
          rfl
  · intro sf tf sp m baseId r bp cp cid hnd hout hb hm hc
    simp only [processAndCompare] at hout
    rw [findVal_filterMap _ compareOne_key hnd, hb] at hout
    simp only [Option.bind] at hout
    rw [compareOne] at hout
    simp only [hm] at hout
    by_cases h0 : cid ≠ 0
    · rw [if_pos h0] at hout
      simp only [hc] at hout
      by_cases hp : 0 < bp.price
      · rw [if_pos hp] at hout
        simp only [Option.map_some'] at hout
        cases hout
        refine ⟨rfl, rfl, by simp [mkComparison], by simp [mkComparison], ?_⟩
        exact mkComparison_flags bp cp
      · rw [if_neg hp] at hout
        cases hout
    · rw [if_neg h0] at hout
      cases hout
  · rfl
  · rfl
  · show round ((((100 : Int) - 80).natAbs : ℚ) / ((100 : Int) : ℚ) * 100) = 20
    norm_num [round_eq]
  · rfl

/-- Witness for C1 (amended): the claim scenario, discharging the
key-uniqueness hypothesis at the concrete input. -/
theorem processAndCompare_spec_witness :
    ∃ r, findVal (processAndCompare [(1, ProductR.mk ['x'] 100)]
        [(9, ProductR.mk ['y'] 80)] "snappfood" [(1, 9)]) 1 = some r :=
  (processAndCompare_spec.1 [(1, ProductR.mk ['x'] 100)]
      [(9, ProductR.mk ['y'] 80)] "snappfood" [(1, 9)] 1 (by decide)).mpr
    ⟨ProductR.mk ['x'] 100, 9, ProductR.mk ['y'] 80, by decide, by decide,
      by decide, by decide, by decide⟩

/-- C1 counterexample: with base `{1: price 100}`, counterpart
`{0: price 80}` and mapping `{1 ↦ 0}`, the mapping gives a counterpart id
(`0`) that is present in the counterpart collection and the base price is
positive, yet the source's `if (counterpartId)` truthiness test drops the
pair: no record is output, so the claim's "exactly when" fails as
stated. -/
theorem processAndCompare_counterexample :
    processAndCompare [(1, ProductR.mk ['a'] 100)] [(0, ProductR.mk ['b'] 80)]
        "snappfood" [(1, 0)] = [] ∧
    findVal [(1, 0)] 1 = some 0 ∧
    findVal [(0, ProductR.mk ['b'] 80)] 0 = some (ProductR.mk ['b'] 80) ∧
    (0 : Int) < (ProductR.mk ['a'] 100).price := by
  refine ⟨rfl, rfl, rfl, by decide⟩

/-- Vendor identity pair from the mapping API (src/unnamed/part_001 lines
826-831); fields not read by the handler are omitted. -/
structure VendorInfoR where
  sf_code : String
  tf_code : String
deriving DecidableEq

/-- Result of `getVendorData` as consumed by the `fetchPrices` handler
(src/unnamed/part_001 lines 807-826). -/
structure ApiResult where
  success : Bool
  vendor_info : VendorInfoR
  item_mappings : List (Nat × Nat)
  apiError : String
  isConnectionError : Bool

/-- Shape of the `sendResponse` payloads of the `fetchPrices` branch
(src/unnamed/part_001 lines 802-859). -/
structure FetchResponse where
  success : Bool
  data : Option (List (Nat × CompR))
  vendorInfo : Option VendorInfoR
  respError : Option String
deriving DecidableEq

/-- JS falsiness of an optional string (`undefined` or empty). -/
def jsFalsyStr : Option String → Bool
  | none => true
  | some s => decide (s = "")

/-- The `fetchPrices` branch of the background message handler
(src/unnamed/part_001 lines 796-863), with the awaited results of
`getVendorData`, `fetchSnappfoodData` and `fetchTapsifoodData` passed in
as arguments (`none` models the fetchers' `null` failure result). -/
def fetchPricesHandler (sourcePlatform sfVendorCode tfVendorCode : Option String)
    (apiResult : ApiResult)
    (sfProducts tfProducts : Option (List (Nat × ProductR))) : FetchResponse :=
  if jsFalsyStr sourcePlatform ∨ (jsFalsyStr sfVendorCode ∧ jsFalsyStr tfVendorCode) then
    { success := false, data := none, vendorInfo := none,
      respError := some "Invalid request format." }
  else if ¬((sourcePlatform = some "snappfood" ∧ ¬jsFalsyStr sfVendorCode) ∨
      (sourcePlatform = some "tapsifood" ∧ ¬jsFalsyStr tfVendorCode)) then
    { success := false, data := none, vendorInfo := none,
      respError := some "Invalid platform or vendor code." }
  else if apiResult.success = false then
    { success := false, data := none, vendorInfo := none,
      respError := some apiResult.apiError }
  else
    match sfProducts, tfProducts with
    | some sf, some tf =>
        { success := true,
          data := some (processAndCompare sf tf (sourcePlatform.getD "")
            apiResult.item_mappings),
          vendorInfo := some apiResult.vendor_info,
          respError := none }
    | _, _ =>
        { success := false, data := none, vendorInfo := none,
          respError :=
            some "Failed to fetch product data from one or both platforms." }

/-- C4: if either platform's product fetch fails (returns `null`), the
whole `fetchPrices` request responds with `success: false` and carries no
comparison data; a `success: true` response is produced only when both
fetches succeeded, and every failing response carries no data — no
half-populated result is ever sent. -/
theorem fetchPrices_all_or_nothing (sp sfc tfc : Option String) (api : ApiResult)
    (sfP tfP : Option (List (Nat × ProductR))) :
    ((sfP = none ∨ tfP = none) →
      (fetchPricesHandler sp sfc tfc api sfP tfP).success = false ∧
      (fetchPricesHandler sp sfc tfc api sfP tfP).data = none) ∧
    ((fetchPricesHandler sp sfc tfc api sfP tfP).success = true →
      sfP.isSome = true ∧ tfP.isSome = true) ∧
    ((fetchPricesHandler sp sfc tfc api sfP tfP).success = false →
      (fetchPricesHandler sp sfc tfc api sfP tfP).data = none) := by
  rcases sfP with _ | sf <;> rcases tfP with _ | tf <;>
    simp only [fetchPricesHandler] <;> split_ifs <;> simp

/-- Witness for C4: a failed SnappFood fetch at a concrete valid request
fails the whole response with no data. -/
theorem fetchPrices_all_or_nothing_witness :
    (fetchPricesHandler (some "snappfood") (some "v1") none
        (ApiResult.mk true (VendorInfoR.mk "v1" "w1") [] "" false)
        none (some [(9, ProductR.mk ['y'] 80)])).success = false ∧
    (fetchPricesHandler (some "snappfood") (some "v1") none
        (ApiResult.mk true (VendorInfoR.mk "v1" "w1") [] "" false)
        none (some [(9, ProductR.mk ['y'] 80)])).data = none :=
  (fetchPrices_all_or_nothing (some "snappfood") (some "v1") none
      (ApiResult.mk true (VendorInfoR.mk "v1" "w1") [] "" false)
      none (some [(9, ProductR.mk ['y'] 80)])).1 (Or.inl rfl)

/-- JS `toLowerCase`, character-wise (exact on the ASCII and Persian
characters the extension handles; Persian has no letter case). -/
def jsToLower (s : List Char) : List Char := s.map Char.toLower

/-- JS `String.prototype.trim` on a character list. -/
def trimL (s : List Char) : List Char :=
  ((s.dropWhile Char.isWhitespace).reverse.dropWhile Char.isWhitespace).reverse

/-- One step of splitting on whitespace runs (the non-empty pieces of
JS `split(/\s+/)`). -/
def splitWsF (c : Char) (acc : List Char × List (List Char)) :
    List Char × List (List Char) :=
  if c.isWhitespace then
    ([], if acc.1.isEmpty then acc.2 else acc.1 :: acc.2)
  else (c :: acc.1, acc.2)

/-- `split(/\s+/)` followed by dropping empty pieces, as the source does
with `.filter(word => word.length > 0)` (and as the `length > 1` guard
makes irrelevant where it does not). -/
def splitWs (s : List Char) : List (List Char) :=
  let acc := s.foldr splitWsF ([], [])
  if acc.1.isEmpty then acc.2 else acc.1 :: acc.2

/-- Boolean list-prefix test (JS `String.prototype.startsWith`). -/
def isPrefB : List Char → List Char → Bool
  | [], _ => true
  | _ :: _, [] => false
  | a :: as, b :: bs => a = b && isPrefB as bs

/-- JS `String.prototype.includes`: substring occurrence test. -/
def includesB : List Char → List Char → Bool
  | n, [] => isPrefB n []
  | n, c :: t => isPrefB n (c :: t) || includesB n t

/-- Persian variant canonicalization of `calculateSimpleSimilarity`'s
`normalizeText` (src/unnamed/part_000 lines 882-889): the regexes
`[یي]→ی`, `[کك]→ک`, `[هة]→ه` change exactly the characters `ي`, `ك`,
`ة`. -/
def persChar (c : Char) : Char :=
  if c = 'ي' then 'ی' else if c = 'ك' then 'ک' else if c = 'ة' then 'ه' else c

/-- Per-character effect of `normalizeText`: variant replacement then
`toLowerCase`. -/
def normChar (c : Char) : Char := (persChar c).toLower

/-- `normalizeText` of `calculateSimpleSimilarity`: replace variants,
lower-case, then trim. -/
def normalizeText (s : List Char) : List Char := trimL (s.map normChar)

/-- The subsequence walk of `calculateSimpleSimilarity`: the number of
query characters found in order within the text. -/
def subseqCount : List Char → List Char → Nat
  | _, [] => 0
  | [], _ :: _ => 0
  | t :: ts, q :: qs => if t = q then 1 + subseqCount ts qs else subseqCount ts (q :: qs)

/-- `calculateSimpleSimilarity` (src/unnamed/part_000 lines 878-913):
10 per subsequence-matched character, +30 on full completion, +20 per
query word of length > 1 contained in the normalized text. -/
def simpleSimilarity (query text : List Char) : Nat :=
  let nq := normalizeText query
  let nt := normalizeText text
  let m := subseqCount nt nq
  10 * m + (if m = nq.length then 30 else 0)
    + 20 * ((splitWs nq).countP (fun w => decide (1 < w.length) && includesB w nt))

/-- The per-record score of `performSmartSearch` (src/unnamed/part_000
lines 839-858): +1000 for the full query as substring, per word +100 for
containment (+50 for a word-boundary or prefix occurrence) or else the
similarity fallback, +10 for short searchable text. -/
def smartScore (lowerQuery text : List Char) : Nat :=
  let queryWords := splitWs lowerQuery
  (if includesB lowerQuery text then 1000 else 0)
  + queryWords.foldl (fun acc w =>
      acc + (if includesB w text then
              100 + (if includesB (' ' :: w) text || isPrefB w text then 50 else 0)
            else simpleSimilarity w text)) 0
  + (if text.length < 50 then 10 else 0)

/-- Searchable text of a comparison record on the product path
(src/unnamed/part_000 line 826). -/
def searchableTextP (r : CompR) : List Char :=
  jsToLower (r.baseProduct.name ++ [' '] ++ r.counterpartProduct.name)

/-- A scored search result (`{...item, searchScore, searchableText}`). -/
structure ScoredP where
  item : CompR
  searchScore : Nat
  searchableText : List Char
deriving DecidableEq

/-- Stable insertion into a sorted list (JS `Array.prototype.sort` is
stable; for a consistent comparator the stable sorted result is unique,
so insertion sort models it). -/
def insertBy {α : Type} (le : α → α → Bool) (x : α) : List α → List α
  | [] => [x]
  | y :: ys => if le x y then x :: y :: ys else y :: insertBy le x ys

/-- Stable sort by a boolean comparator. -/
def sortBy {α : Type} (le : α → α → Bool) : List α → List α
  | [] => []
  | x :: xs => insertBy le x (sortBy le xs)

/-- `performSmartSearch` on the product path (src/unnamed/part_000 lines
813-876), returning the surviving records in ranked order.  On a query
with no words the source returns `data` unchanged; otherwise records are
scored, those at or below the threshold 5 are dropped, and the rest are
sorted by descending score. -/
def performSmartSearchP (query : List Char) (data : List CompR) : List CompR :=
  let lowerQuery := trimL (jsToLower query)
  if splitWs lowerQuery = [] then data
  else
    let scored := data.map (fun r =>
      ScoredP.mk r (smartScore lowerQuery (searchableTextP r)) (searchableTextP r))
    (sortBy (fun a b => decide (b.searchScore ≤ a.searchScore))
      (scored.filter (fun s => decide (5 < s.searchScore)))).map ScoredP.item

theorem isPrefB_subset : ∀ (n h : List Char), isPrefB n h = true →
    ∀ c ∈ n, c ∈ h := by
  intro n
  induction n with
  | nil => intro h _ c hc; cases hc
  | cons a as ih =>
      intro h hp c hc
      cases h with
      | nil => cases hp
      | cons b bs =>
          simp only [isPrefB, Bool.and_eq_true, decide_eq_true_eq] at hp
          rcases List.mem_cons.mp hc with rfl | hc'
          · simp [hp.1]
          · exact List.mem_cons_of_mem _ (ih bs hp.2 c hc')

theorem includesB_subset : ∀ (h n : List Char), includesB n h = true →
    ∀ c ∈ n, c ∈ h := by
  intro h
  induction h with
  | nil =>
      intro n hi c hc
      cases n with
      | nil => cases hc
      | cons a as => cases hi
  | cons b bs ih =>
      intro n hi c hc
      simp only [includesB, Bool.or_eq_true] at hi
      rcases hi with hi | hi
      · exact isPrefB_subset n (b :: bs) hi c hc
      · exact List.mem_cons_of_mem _ (ih n hi c hc)

theorem mem_dropWhile_of_not {p : Char → Bool} :
    ∀ {l : List Char} {c : Char}, c ∈ l → p c = false →
      c ∈ l.dropWhile p := by
  intro l
  induction l with
  | nil => intro c hc _; cases hc
  | cons a as ih =>
      intro c hc hp
      by_cases ha : p a = true
      · rw [List.dropWhile_cons_of_pos ha]
        rcases List.mem_cons.mp hc with rfl | hc'
        · rw [hp] at ha; cases ha
        · exact ih hc' hp
      · rw [List.dropWhile_cons_of_neg ha]
        exact hc

theorem trimL_subset {c : Char} {s : List Char} (h : c ∈ trimL s) : c ∈ s := by
  unfold trimL at h
  rw [List.mem_reverse] at h
  have h1 := (List.dropWhile_sublist _).subset h
  rw [List.mem_reverse] at h1
  exact (List.dropWhile_sublist _).subset h1

theorem mem_trimL_of_not_ws {c : Char} {s : List Char}
    (hc : c ∈ s) (hw : c.isWhitespace = false) : c ∈ trimL s := by
  unfold trimL
  rw [List.mem_reverse]
  apply mem_dropWhile_of_not _ hw
  rw [List.mem_reverse]
  exact mem_dropWhile_of_not hc hw

theorem trimL_ne_nil {c : Char} {s : List Char}
    (hc : c ∈ s) (hw : c.isWhitespace = false) : trimL s ≠ [] := by
  intro h
  have := mem_trimL_of_not_ws hc hw
  rw [h] at this
  cases this

theorem splitWs_aux_spec : ∀ s : List Char,
    (∀ c ∈ (s.foldr splitWsF ([], [])).1, c ∈ s ∧ c.isWhitespace = false) ∧
    (∀ w ∈ (s.foldr splitWsF ([], [])).2,
        w ≠ [] ∧ ∀ c ∈ w, c ∈ s ∧ c.isWhitespace = false) := by
  intro s
  induction s with
  | nil =>
      constructor
      · intro c hc; cases hc
      · intro w hw; cases hw
  | cons a rest ih =>
      rw [List.foldr_cons]
      by_cases ha : a.isWhitespace = true
      · simp only [splitWsF, ha, if_true]
        refine ⟨?_, ?_⟩
        · intro c hc; cases hc
        · intro w hw
          by_cases he : (rest.foldr splitWsF ([], [])).1.isEmpty = true
          · simp only [he, if_true] at hw
            obtain ⟨hne, hall⟩ := ih.2 w hw
            exact ⟨hne, fun c hc =>
              ⟨List.mem_cons_of_mem _ ((hall c hc).1), (hall c hc).2⟩⟩
          · simp only [he, if_false] at hw
            rcases List.mem_cons.mp hw with rfl | hw'
            · refine ⟨by simpa [List.isEmpty_iff] using he, ?_⟩
              intro c hc
              exact ⟨List.mem_cons_of_mem _ ((ih.1 c hc).1), (ih.1 c hc).2⟩
            · obtain ⟨hne, hall⟩ := ih.2 w hw'
              exact ⟨hne, fun c hc =>
                ⟨List.mem_cons_of_mem _ ((hall c hc).1), (hall c hc).2⟩⟩
      · simp only [splitWsF, ha, if_false]
        rw [Bool.not_eq_true] at ha
        constructor
        · intro c hc
          rcases List.mem_cons.mp hc with rfl | hc'
          · exact ⟨List.mem_cons_self _ _, ha⟩
          · exact ⟨List.mem_cons_of_mem _ ((ih.1 c hc').1), (ih.1 c hc').2⟩
        · intro w hw
          obtain ⟨hne, hall⟩ := ih.2 w hw
          exact ⟨hne, fun c hc =>
            ⟨List.mem_cons_of_mem _ ((hall c hc).1), (hall c hc).2⟩⟩

theorem splitWs_spec {s : List Char} {w : List Char} (hw : w ∈ splitWs s) :
    w ≠ [] ∧ ∀ c ∈ w, c ∈ s ∧ c.isWhitespace = false := by
  unfold splitWs at hw
  by_cases he : (s.foldr splitWsF ([], [])).1.isEmpty = true
  · simp only [he, if_true] at hw
    exact (splitWs_aux_spec s).2 w hw
  · simp only [he, if_false] at hw
    rcases List.mem_cons.mp hw with rfl | hw'
    · exact ⟨by simpa [List.isEmpty_iff] using he,
        fun c hc => (splitWs_aux_spec s).1 c hc⟩
    · exact (splitWs_aux_spec s).2 w hw'

theorem ofNat_lower_not_ws : ∀ k : Nat, 97 ≤ k → k ≤ 122 →
    (Char.ofNat k).isWhitespace = false := by
  intro k h1 h2
  interval_cases k <;> decide

theorem persChar_not_ws {c : Char} (h : c.isWhitespace = false) :
    (persChar c).isWhitespace = false := by
  unfold persChar
  split_ifs <;> first | decide | exact h

theorem toLower_not_ws {c : Char} (h : c.isWhitespace = false) :
    c.toLower.isWhitespace = false := by
  unfold Char.toLower
  simp only []
  split_ifs with hn
  · exact ofNat_lower_not_ws _ (by omega) (by omega)
  · exact h

theorem normChar_not_ws {c : Char} (h : c.isWhitespace = false) :
    (normChar c).isWhitespace = false :=
  toLower_not_ws (persChar_not_ws h)

theorem subseqCount_disjoint : ∀ (t q : List Char), (∀ c ∈ t, c ∉ q) →
    subseqCount t q = 0 := by
  intro t
  induction t with
  | nil => intro q _; cases q <;> rfl
  | cons a ts ih =>
      intro q h
      cases q with
      | nil => rfl
      | cons b qs =>
          have hne : a ≠ b := by
            intro he
            exact (h a (List.mem_cons_self _ _)) (he ▸ List.mem_cons_self _ _)
          simp only [subseqCount, if_neg hne]
          exact ih (b :: qs) (fun c hc => h c (List.mem_cons_of_mem _ hc))

theorem foldl_add_eq_init {α : Type} (f : α → Nat) :
    ∀ (ws : List α) (a : Nat), (∀ w ∈ ws, f w = 0) →
      ws.foldl (fun acc w => acc + f w) a = a := by
  intro ws
  induction ws with
  | nil => intro a _; rfl
  | cons w rest ih =>
      intro a h
      rw [List.foldl_cons, h w (List.mem_cons_self _ _)]
      exact ih a (fun w' hw' => h w' (List.mem_cons_of_mem _ hw'))

theorem mem_insertBy {α : Type} (le : α → α → Bool) (x a : α) :
    ∀ l : List α, a ∈ insertBy le x l ↔ a = x ∨ a ∈ l := by
  intro l
  induction l with
  | nil => simp [insertBy]
  | cons y ys ih =>
      by_cases h : le x y = true
      · simp [insertBy, h]
      · simp only [insertBy, if_neg h, List.mem_cons, ih]
        tauto

theorem mem_sortBy {α : Type} (le : α → α → Bool) (a : α) :
    ∀ l : List α, a ∈ sortBy le l ↔ a ∈ l := by
  intro l
  induction l with
  | nil => simp [sortBy]
  | cons y ys ih =>
      simp only [sortBy, mem_insertBy, List.mem_cons, ih]

theorem smartScore_zero_overlap (lowerQuery text : List Char)
    (hw : splitWs lowerQuery ≠ [])
    (hdisj : ∀ c ∈ text.map normChar, c ∉ lowerQuery.map normChar)
    (hlen : 50 ≤ text.length) :
    smartScore lowerQuery text = 0 := by
  have hshared : ∀ c, c ∈ lowerQuery → c ∈ text → False := by
    intro c hq ht
    exact hdisj (normChar c) (List.mem_map_of_mem _ ht) (List.mem_map_of_mem _ hq)
  obtain ⟨w0, hw0⟩ : ∃ w, w ∈ splitWs lowerQuery := by
    cases hsw : splitWs lowerQuery with
    | nil => exact absurd hsw hw
    | cons w ws => exact ⟨w, List.mem_cons_self _ _⟩
  obtain ⟨hw0ne, hw0chars⟩ := splitWs_spec hw0
  obtain ⟨c0, hc0⟩ : ∃ c, c ∈ w0 := by
    cases w0 with
    | nil => exact absurd rfl hw0ne
    | cons c cs => exact ⟨c, List.mem_cons_self _ _⟩
  have hfull : includesB lowerQuery text = false := by
    by_contra hcon
    rw [Bool.not_eq_false] at hcon
    exact hshared c0 ((hw0chars c0 hc0).1)
      (includesB_subset text lowerQuery hcon c0 ((hw0chars c0 hc0).1))
  have hword : ∀ w ∈ splitWs lowerQuery,
      (if includesB w text = true then
        100 + (if (includesB (' ' :: w) text || isPrefB w text) = true then 50 else 0)
      else simpleSimilarity w text) = 0 := by
    intro w hwmem
    obtain ⟨hne, hchars⟩ := splitWs_spec hwmem
    obtain ⟨c1, hc1⟩ : ∃ c, c ∈ w := by
      cases w with
      | nil => exact absurd rfl hne
      | cons c cs => exact ⟨c, List.mem_cons_self _ _⟩
    have hinc : includesB w text = false := by
      by_contra hcon
      rw [Bool.not_eq_false] at hcon
      exact hshared c1 (hchars c1 hc1).1 (includesB_subset text w hcon c1 hc1)
    rw [if_neg (by simp [hinc])]
    have hnt_nq : ∀ c ∈ normalizeText text, c ∉ normalizeText w := by
      intro c hcnt hcnq
      have h1 : c ∈ text.map normChar := trimL_subset hcnt
      have h2 : c ∈ w.map normChar := trimL_subset hcnq
      obtain ⟨d, hd, rfl⟩ := List.mem_map.mp h2
      exact hdisj _ h1 (List.mem_map_of_mem _ ((hchars d hd).1))
    have hm : subseqCount (normalizeText text) (normalizeText w) = 0 :=
      subseqCount_disjoint _ _ hnt_nq
    have hnqne : normalizeText w ≠ [] := by
      have hmem : normChar c1 ∈ normalizeText w :=
        mem_trimL_of_not_ws (List.mem_map_of_mem _ hc1)
          (normChar_not_ws (hchars c1 hc1).2)
      intro hnil
      rw [hnil] at hmem
      cases hmem
    have hcount : (splitWs (normalizeText w)).countP
        (fun w' => decide (1 < w'.length) && includesB w' (normalizeText text))
          = 0 := by
      rw [List.countP_eq_zero]
      intro w' hw'
      obtain ⟨hne', hchars'⟩ := splitWs_spec hw'
      obtain ⟨c2, hc2⟩ : ∃ c, c ∈ w' := by
        cases w' with
        | nil => exact absurd rfl hne'
        | cons c cs => exact ⟨c, List.mem_cons_self _ _⟩
      have hincw : includesB w' (normalizeText text) = false := by
        by_contra hcon
        rw [Bool.not_eq_false] at hcon
        exact hnt_nq c2
          (includesB_subset (normalizeText text) w' hcon c2 hc2)
          ((hchars' c2 hc2).1)
      simp [hincw]
    simp only [simpleSimilarity, hm, hcount]
    have : ¬(0 = (normalizeText w).length) := by
      intro h0
      exact hnqne (List.length_eq_zero.mp h0.symm)
    simp [this]
  simp only [smartScore, hfull, if_false]
  rw [foldl_add_eq_init _ _ _ hword]
  have : ¬(text.length < 50) := by omega
  simp [this]

/-- C6 (amended): a record whose searchable text shares no characters
with the query — compared after the engine's normalization, as the spec
requires for every comparison — and whose searchable text is at least 50
characters long scores 0 (at or below the discard threshold 5) and is
absent from the results of the smart search, for every query containing
at least one non-whitespace character.  (A zero-overlap record with text
shorter than 50 characters instead receives the +10 short-text bonus,
scores 10 > 5, and is retained — see the counterexample.) -/
theorem searchZeroOverlap_amended (query : List Char) (data : List CompR)
    (it : CompR)
    (hw : splitWs (trimL (jsToLower query)) ≠ [])
    (hdisj : ∀ c ∈ (searchableTextP it).map normChar,
        c ∉ (trimL (jsToLower query)).map normChar)
    (hlen : 50 ≤ (searchableTextP it).length) :
    smartScore (trimL (jsToLower query)) (searchableTextP it) = 0 ∧
    ∀ r ∈ performSmartSearchP query data, r ≠ it := by
  have hscore := smartScore_zero_overlap _ _ hw hdisj hlen
  refine ⟨hscore, ?_⟩
  intro r hr
  unfold performSmartSearchP at hr
  rw [if_neg hw] at hr
  obtain ⟨s, hs, hsr⟩ := List.mem_map.mp hr
  rw [mem_sortBy] at hs
  obtain ⟨hsmem, hsscore⟩ := List.mem_filter.mp hs
  obtain ⟨r', hr', hseq⟩ := List.mem_map.mp hsmem
  intro heq
  rw [decide_eq_true_eq] at hsscore
  have : s.searchScore = smartScore (trimL (jsToLower query)) (searchableTextP r') := by
    rw [← hseq]
  rw [this] at hsscore
  have hr'it : r' = it := by
    rw [← heq, ← hsr, ← hseq]
  rw [hr'it, hscore] at hsscore
  omega

/-- Witness for C6 (amended): a 62-character record sharing no characters
with the query `"ab"` scores 0 and is dropped. -/
theorem searchZeroOverlap_amended_witness :
    smartScore (trimL (jsToLower ['a', 'b']))
      (searchableTextP (CompR.mk (ProductR.mk (List.replicate 30 'z') 100)
        (ProductR.mk (List.replicate 30 'q') 80) 20 20 true false false)) = 0 ∧
    ∀ r ∈ performSmartSearchP ['a', 'b']
        [CompR.mk (ProductR.mk (List.replicate 30 'z') 100)
          (ProductR.mk (List.replicate 30 'q') 80) 20 20 true false false],
      r ≠ CompR.mk (ProductR.mk (List.replicate 30 'z') 100)
        (ProductR.mk (List.replicate 30 'q') 80) 20 20 true false false :=
  searchZeroOverlap_amended ['a', 'b']
    [CompR.mk (ProductR.mk (List.replicate 30 'z') 100)
      (ProductR.mk (List.replicate 30 'q') 80) 20 20 true false false]
    (CompR.mk (ProductR.mk (List.replicate 30 'z') 100)
      (ProductR.mk (List.replicate 30 'q') 80) 20 20 true false false)
    (by decide) (by decide) (by decide)

/-- C6 counterexample: the record with searchable text `"xyz q"` (5
characters, below the 50-character short-text threshold) shares no
characters with the query `"ab"` — also after normalization — yet scores
exactly the +10 short-text bonus, which is above the discard threshold 5,
and IS returned by the smart search; and for the non-empty
whitespace-only query a single tab, the search returns the dataset unchanged, so
the record is again present despite sharing no characters. -/
theorem searchZeroOverlap_counterexample :
    (∀ c ∈ (searchableTextP (CompR.mk (ProductR.mk ['x', 'y', 'z'] 100)
        (ProductR.mk ['q'] 80) 20 20 true false false)).map normChar,
      c ∉ (trimL (jsToLower ['a', 'b'])).map normChar) ∧
    smartScore (trimL (jsToLower ['a', 'b']))
      (searchableTextP (CompR.mk (ProductR.mk ['x', 'y', 'z'] 100)
        (ProductR.mk ['q'] 80) 20 20 true false false)) = 10 ∧
    (CompR.mk (ProductR.mk ['x', 'y', 'z'] 100) (ProductR.mk ['q'] 80)
        20 20 true false false)
      ∈ performSmartSearchP ['a', 'b']
        [CompR.mk (ProductR.mk ['x', 'y', 'z'] 100) (ProductR.mk ['q'] 80)
          20 20 true false false] ∧
    performSmartSearchP ['\t']
        [CompR.mk (ProductR.mk ['x', 'y', 'z'] 100) (ProductR.mk ['q'] 80)
          20 20 true false false]
      = [CompR.mk (ProductR.mk ['x', 'y', 'z'] 100) (ProductR.mk ['q'] 80)
          20 20 true false false] := by
  refine ⟨by decide, by decide, by decide, by decide⟩

/-- C7 (amended): the Persian-variant normalization is applied
identically to the query word and the candidate text only inside the
subsequence-similarity fallback (`calculateSimpleSimilarity` normalizes
both of its arguments), so the fallback score is invariant under variant
substitution on either side; the full-query substring check and the
per-word containment checks of `performSmartSearch` compare merely
case-folded strings without this canonicalization, so two texts differing
only in variant characters can receive different total scores — see the
counterexample. -/
theorem similarity_normalization_amended :
    (∀ (w t t' : List Char), normalizeText t = normalizeText t' →
        simpleSimilarity w t = simpleSimilarity w t') ∧
    (∀ (w w' t : List Char), normalizeText w = normalizeText w' →
        simpleSimilarity w t = simpleSimilarity w' t) := by
  constructor
  · intro w t t' h
    simp only [simpleSimilarity, h]
  · intro w w' t h
    simp only [simpleSimilarity, h]

/-- Witness for C7 (amended): the fallback gives the Arabic-yeh variant
text the same similarity as the Farsi-yeh text. -/
theorem similarity_normalization_amended_witness :
    simpleSimilarity ("علی".toList) ("علي ".toList)
      = simpleSimilarity ("علی".toList) ("علی ".toList) :=
  similarity_normalization_amended.1 ("علی".toList) ("علي ".toList)
    ("علی ".toList) (by decide)

/-- C7 counterexample: two records whose searchable texts differ only in
the yeh variant (`علی` with Farsi yeh versus `علي` with Arabic yeh) —
their normalized forms are equal — receive different total scores against
the query `علی`: the Farsi-yeh text passes the non-normalized substring
and word checks (score 1160) while the Arabic-yeh text only reaches the
normalized fallback (score 90). -/
theorem similarity_normalization_counterexample :
    normalizeText (searchableTextP (CompR.mk (ProductR.mk ("علی".toList) 100)
        (ProductR.mk [] 80) 20 20 true false false))
      = normalizeText (searchableTextP (CompR.mk (ProductR.mk ("علي".toList) 100)
        (ProductR.mk [] 80) 20 20 true false false)) ∧
    smartScore (trimL (jsToLower ("علی".toList)))
      (searchableTextP (CompR.mk (ProductR.mk ("علی".toList) 100)
        (ProductR.mk [] 80) 20 20 true false false)) = 1160 ∧
    smartScore (trimL (jsToLower ("علی".toList)))
      (searchableTextP (CompR.mk (ProductR.mk ("علي".toList) 100)
        (ProductR.mk [] 80) 20 20 true false false)) = 90 := by
  refine ⟨by decide, by decide, by decide⟩

/-- The raw value of the JS expression
`rating && rating >= PERF_CONFIG.RATING_THRESHOLD`: `&&` short-circuits
on a falsy left operand and returns it, so the expression is `null` for a
null rating, the number `0` for a zero rating, and otherwise the boolean
of the threshold comparison.  The four values stringify differently
inside the `uniqueId` template (`"null"`, `"0"`, `"false"`,
`"true"`). -/
inductive JsHighRated where
  | jsNull
  | jsZero
  | jsFalse
  | jsTrue
deriving DecidableEq

/-- `rating && rating >= PERF_CONFIG.RATING_THRESHOLD` with the 4.2
threshold (src/unnamed/part_000 lines 11 and 1767), kept as its raw JS
value. -/
def jsHighRatedOf (rating : Option ℚ) : JsHighRated :=
  match rating with
  | none => JsHighRated.jsNull
  | some r =>
      if r = 0 then JsHighRated.jsZero
      else if (21 : ℚ) / 5 ≤ r then JsHighRated.jsTrue
      else JsHighRated.jsFalse

/-- Truthiness of that raw value, as every boolean context
(`isPaired && isHighRated`, `isHighRated && !isPaired`, ...) uses it. -/
def JsHighRated.toBool : JsHighRated → Bool
  | JsHighRated.jsTrue => true
  | _ => false

/-- Decoration identity built by `highlightVendor`'s
`uniqueId = vendorCode-rating-isPaired-isHighRated` (src/unnamed/part_000
line 1829); `rating || 'no-rating'` collapses a null or zero rating, so
`ratingPart` is `none` in those cases, while the `${isHighRated}` segment
interpolates the RAW falsy value — `"null"` for a null rating but `"0"`
for a zero rating — so those two produce distinct keys.  The JS string
concatenation is modelled as a structured tuple. -/
structure DecKey where
  vendorCode : String
  ratingPart : Option ℚ
  isPaired : Bool
  highRatedPart : JsHighRated
deriving DecidableEq

/-- A candidate restaurant link as seen by `processVendorElements`: its
resolved container (`findBestContainer` is memoized per link, so it is a
fixed attribute), the vendor code extracted from its URL, and the rating
the extractor would produce for its container (the page-adapter boundary
of the spec). -/
structure Candidate where
  containerId : Nat
  vendorCode : Option String
  rating : Option ℚ
deriving DecidableEq

/-- Epoch-scoped state: `state.processedElements` (processed containers),
`state.processedVendors` (decoration keys already handled),
`state.pairedVendors`, and the log of decorations applied to the page. -/
structure EpochState where
  processedElements : List Nat
  processedVendors : List DecKey
  pairedVendors : List String
  decorations : List (Nat × DecKey)
deriving DecidableEq

/-- State right after `state.reset()` with the paired-vendor set
repopulated: no processed elements, no processed decoration keys, no
decorations yet in the fresh page. -/
def epochReset (paired : List String) : EpochState :=
  { processedElements := [], processedVendors := [],
    pairedVendors := paired, decorations := [] }

/-- `${vendorCode}-${rating || 'no-rating'}-${isPaired}-${isHighRated}`. -/
def mkDecKey (vendorCode : String) (rating : Option ℚ)
    (isPaired : Bool) (isHighRated : JsHighRated) : DecKey :=
  { vendorCode := vendorCode
    ratingPart := match rating with
      | some r => if r = 0 then none else some r
      | none => none
    isPaired := isPaired, highRatedPart := isHighRated }

/-- `highlightVendor` (src/unnamed/part_000 lines 1828-1906): a key
already in `processedVendors` returns untouched; otherwise one of the
three qualifying branches decorates (border class and badges, logged here
as one decoration event) and the key is recorded unconditionally at the
end. -/
def highlightVendor (st : EpochState) (containerId : Nat) (vendorCode : String)
    (rating : Option ℚ) (isPaired : Bool) (isHighRated : JsHighRated) :
    EpochState :=
  let key := mkDecKey vendorCode rating isPaired isHighRated
  if key ∈ st.processedVendors then st
  else
    let st' :=
      if isPaired || isHighRated.toBool then
        { st with decorations := (containerId, key) :: st.decorations }
      else st
    { st' with processedVendors := key :: st'.processedVendors }

/-- One candidate of `processChunk` (src/unnamed/part_000 lines
1744-1781): skip falsy or already-seen codes, skip containers already
processed this epoch, extract the rating only while at most 100 distinct
codes have been seen, and call `highlightVendor` when the vendor is
paired or high-rated. -/
def processCandidate (st : EpochState) (codes : List String) (c : Candidate) :
    EpochState × List String :=
  match c.vendorCode with
  | some code =>
      if code ≠ "" ∧ code ∉ codes then
        let codes' := code :: codes
        if c.containerId ∉ st.processedElements then
          let st₁ := { st with
            processedElements := c.containerId :: st.processedElements }
          let rating := if codes'.length ≤ 100 then c.rating else none
          let isPaired := decide (code ∈ st.pairedVendors)
          let isHighRated := jsHighRatedOf rating
          if isPaired || isHighRated.toBool then
            (highlightVendor st₁ c.containerId code rating isPaired isHighRated,
              codes')
          else (st₁, codes')
        else (st, codes')
      else (st, codes)
  | none => (st, codes)

/-- One invocation of `processVendorElements` over a candidate snapshot:
`processedCodes` starts empty on every invocation, the epoch state
persists.  The `requestIdleCallback` chunking does not affect the
resulting state. -/
def processPass (st : EpochState) (cs : List Candidate) : EpochState :=
  (cs.foldl (fun p c => processCandidate p.1 p.2 c) (st, [])).1

/-- Epoch invariant: every decoration key this epoch is distinct and
recorded in `processedVendors`. -/
def EpochInv (st : EpochState) : Prop :=
  (st.decorations.map Prod.snd).Nodup ∧
  ∀ k ∈ st.decorations.map Prod.snd, k ∈ st.processedVendors

/-- Invariant carried through one pass's fold: the epoch invariant holds,
and the decorations added since the start of the pass carry pairwise
distinct vendor codes, all of them in the running `processedCodes`. -/
def PassInv (st0 : EpochState) (p : EpochState × List String) : Prop :=
  (∃ new, p.1.decorations = new ++ st0.decorations ∧
      (∀ d ∈ new, (Prod.snd d).vendorCode ∈ p.2) ∧
      (new.map (fun d => (Prod.snd d).vendorCode)).Nodup) ∧
  EpochInv p.1

theorem processCandidate_inv (st0 st : EpochState) (codes : List String)
    (c : Candidate) (h : PassInv st0 (st, codes)) :
    PassInv st0 (processCandidate st codes c) := by
  obtain ⟨⟨new, hdec, hin, hnd⟩, hkeynd, hksub⟩ := h
  cases hvc : c.vendorCode with
  | none =>
      simp only [processCandidate, hvc]
      exact ⟨⟨new, hdec, hin, hnd⟩, hkeynd, hksub⟩
  | some code =>
      simp only [processCandidate, hvc]
      by_cases hg : code ≠ "" ∧ code ∉ codes
      · rw [if_pos hg]
        by_cases hel : c.containerId ∉ st.processedElements
        · rw [if_pos hel]
          by_cases hq : (decide (code ∈ st.pairedVendors)
              || (jsHighRatedOf (if (code :: codes).length ≤ 100
                  then c.rating else none)).toBool) = true
          · rw [if_pos hq]
            simp only [highlightVendor]
            by_cases hkey : mkDecKey code
                (if (code :: codes).length ≤ 100 then c.rating else none)
                (decide (code ∈ st.pairedVendors))
                (jsHighRatedOf (if (code :: codes).length ≤ 100
                    then c.rating else none)) ∈ st.processedVendors
            · rw [if_pos hkey]
              refine ⟨⟨new, hdec, ?_, hnd⟩, hkeynd, hksub⟩
              intro d hd
              exact List.mem_cons_of_mem _ (hin d hd)
            · rw [if_neg hkey, if_pos hq]
              refine ⟨⟨(c.containerId, mkDecKey code
                  (if (code :: codes).length ≤ 100 then c.rating else none)
                  (decide (code ∈ st.pairedVendors))
                  (jsHighRatedOf (if (code :: codes).length ≤ 100
                      then c.rating else none))) :: new, ?_, ?_, ?_⟩, ?_, ?_⟩
              · simp only [List.cons_append]
                rw [hdec]
              · intro d hd
                rcases List.mem_cons.mp hd with rfl | hd'
                · exact List.mem_cons_self _ _
                · exact List.mem_cons_of_mem _ (hin d hd')
              · simp only [List.map_cons, List.nodup_cons]
                refine ⟨?_, hnd⟩
                intro hmem
                obtain ⟨d, hd, hdc⟩ := List.mem_map.mp hmem
                have : (Prod.snd d).vendorCode ∈ codes := hin d hd
                rw [hdc] at this
                exact hg.2 this
              · simp only [List.map_cons, List.nodup_cons]
                refine ⟨?_, hkeynd⟩
                intro hmem
                exact hkey (hksub _ hmem)
              · intro k hk
                simp only [List.map_cons, List.mem_cons] at hk
                rcases hk with rfl | hk'
                · exact List.mem_cons_self _ _
                · exact List.mem_cons_of_mem _ (hksub k hk')
          · rw [if_neg hq]
            refine ⟨⟨new, hdec, ?_, hnd⟩, hkeynd, hksub⟩
            intro d hd
            exact List.mem_cons_of_mem _ (hin d hd)
        · rw [if_neg hel]
          refine ⟨⟨new, hdec, ?_, hnd⟩, hkeynd, hksub⟩
          intro d hd
          exact List.mem_cons_of_mem _ (hin d hd)
      · rw [if_neg hg]
        exact ⟨⟨new, hdec, hin, hnd⟩, hkeynd, hksub⟩

theorem processPass_inv (st : EpochState) (cs : List Candidate)
    (h : EpochInv st) :
    PassInv st (cs.foldl (fun p c => processCandidate p.1 p.2 c) (st, [])) := by
  have hstart : PassInv st (st, []) := by
    refine ⟨⟨[], by simp, by simp, by simp⟩, h⟩
  suffices H : ∀ (cs' : List Candidate) (p : EpochState × List String),
      PassInv st p →
      PassInv st (cs'.foldl (fun p c => processCandidate p.1 p.2 c) p) by
    exact H cs (st, []) hstart
  intro cs'
  induction cs' with
  | nil => intro p hp; exact hp
  | cons c rest ih =>
      intro p hp
      exact ih _ (processCandidate_inv st p.1 p.2 c hp)

/-- C5 (amended): starting from an epoch reset, every decoration key
(vendorCode, rating, isPaired, isHighRated) is decorated at most once per
epoch, including across repeated invocations of the vendor-processing
pass — all decoration keys logged during an epoch are pairwise distinct —
and within a single pass at most one candidate per derived VendorCode is
decorated.  The key's fourth component is the raw falsy value of the JS
`isHighRated` expression, so a null rating and a zero rating give
distinct keys.  (The original "exactly one" fails: a set of candidates
sharing a VendorCode that is neither paired nor high-rated yields zero
decorations, see the counterexample.) -/
theorem decoration_dedupe_amended :
    (∀ paired : List String, EpochInv (epochReset paired)) ∧
    (∀ (st : EpochState) (cs : List Candidate), EpochInv st →
        EpochInv (processPass st cs)) ∧
    (∀ (st : EpochState) (cs : List Candidate), EpochInv st →
        ∃ new, (processPass st cs).decorations = new ++ st.decorations ∧
          (new.map (fun d => (Prod.snd d).vendorCode)).Nodup ∧
          (new.map Prod.snd).Nodup) ∧
    (∀ (paired : List String) (passes : List (List Candidate)),
        ((passes.foldl processPass (epochReset paired)).decorations.map
            Prod.snd).Nodup) := by
  have hpass : ∀ (st : EpochState) (cs : List Candidate), EpochInv st →
      PassInv st (cs.foldl (fun p c => processCandidate p.1 p.2 c) (st, [])) :=
    processPass_inv
  refine ⟨?_, ?_, ?_, ?_⟩
  · intro paired
    exact ⟨by simp [epochReset], by simp [epochReset]⟩
  · intro st cs h
    exact (hpass st cs h).2
  · intro st cs h
    obtain ⟨⟨new, hdec, _, hnd⟩, hkeynd, _⟩ := hpass st cs h
    refine ⟨new, hdec, hnd, ?_⟩
    rw [hdec, List.map_append] at hkeynd
    exact hkeynd.of_append_left
  · intro paired passes
    have hfold : ∀ (ps : List (List Candidate)) (st : EpochState),
        EpochInv st → EpochInv (ps.foldl processPass st) := by
      intro ps
      induction ps with
      | nil => intro st h; exact h
      | cons cs rest ih =>
          intro st h
          exact ih _ ((hpass st cs h).2)
    exact (hfold passes (epochReset paired)
      ⟨by simp [epochReset], by simp [epochReset]⟩).1

/-- Witness for C5 (amended): one paired candidate after a reset is
decorated; the invariant and per-pass conclusions hold at this concrete
input. -/
theorem decoration_dedupe_amended_witness :
    EpochInv (processPass (epochReset ["v1"])
        [Candidate.mk 1 (some "v1") none]) ∧
    (∃ new, (processPass (epochReset ["v1"])
          [Candidate.mk 1 (some "v1") none]).decorations
        = new ++ (epochReset ["v1"]).decorations ∧
      (new.map (fun d => (Prod.snd d).vendorCode)).Nodup ∧
      (new.map Prod.snd).Nodup) :=
  ⟨decoration_dedupe_amended.2.1 (epochReset ["v1"])
      [Candidate.mk 1 (some "v1") none] (by constructor <;> simp [epochReset]),
   decoration_dedupe_amended.2.2.1 (epochReset ["v1"])
      [Candidate.mk 1 (some "v1") none] (by constructor <;> simp [epochReset])⟩

/-- C5 counterexample: "exactly one per VendorCode per epoch" fails in
both directions.  Two candidates sharing the derived VendorCode `"x"`,
neither paired nor high-rated, are decorated ZERO times in a fresh epoch
(the decoration branches of `highlightVendor` are only entered for paired
or high-rated vendors, and `processChunk` only calls it under that same
guard).  And a paired vendor `"p"` seen with a null rating in one pass
and with a zero rating in a later pass of the same epoch is decorated
TWICE: the `uniqueId` segment `${isHighRated}` interpolates the raw falsy
value, `"null"` versus `"0"`, so the two passes use distinct keys. -/
theorem decoration_dedupe_counterexample :
    (processPass (epochReset []) [Candidate.mk 1 (some "x") none,
        Candidate.mk 2 (some "x") none]).decorations = [] ∧
    (processPass (processPass (epochReset ["p"])
          [Candidate.mk 1 (some "p") none])
        [Candidate.mk 2 (some "p") (some 0)]).decorations
      = [(2, mkDecKey "p" (some 0) true JsHighRated.jsZero),
         (1, mkDecKey "p" none true JsHighRated.jsNull)] := by
  constructor
  · rfl
  · rfl

/-- Vendor mapping as held in `state.vendorList`
(`normalizeVendorData`/`getVendorMapping` reduce a vendor-list entry to
this record, src/unnamed/part_000 lines 577-604); unused fields
omitted. -/
structure VendorM where
  sf_code : List Char
  sf_name : List Char
  tf_code : List Char
  tf_name : List Char
deriving DecidableEq

/-- An element of the search pipeline: a comparison record (product
pages) or a vendor mapping (vendor list).  The JS pipeline is dynamically
typed; the `hasProductData` flag selects which variant a path touches. -/
def SItem : Type := CompR ⊕ VendorM

instance : DecidableEq SItem := by
  unfold SItem
  infer_instance

/-- `item.baseProduct.price` (product paths only). -/
def basePriceOf : SItem → Int
  | Sum.inl c => c.baseProduct.price
  | Sum.inr _ => 0

/-- `item.baseProduct.name` (product paths only). -/
def baseNameOf : SItem → List Char
  | Sum.inl c => c.baseProduct.name
  | Sum.inr _ => []

/-- `item.priceDiff` (product paths only). -/
def priceDiffOf : SItem → Int
  | Sum.inl c => c.priceDiff
  | Sum.inr _ => 0

/-- `item.percentDiff` (product paths only). -/
def percentDiffOf : SItem → Int
  | Sum.inl c => c.percentDiff
  | Sum.inr _ => 0

/-- `getVendorMapping(item).sf_name` (vendor-list paths only). -/
def sfNameOf : SItem → List Char
  | Sum.inl _ => []
  | Sum.inr v => v.sf_name

/-- The searchable text of `performSmartSearch` for either path
(src/unnamed/part_000 lines 825-833). -/
def searchableTextOf (hasProductData : Bool) (it : SItem) : List Char :=
  if hasProductData then
    match it with
    | Sum.inl c => searchableTextP c
    | Sum.inr _ => []
  else
    match it with
    | Sum.inl _ => []
    | Sum.inr v =>
        jsToLower (v.sf_name ++ [' '] ++ v.tf_name)
          ++ jsToLower ([' '] ++ v.sf_code ++ [' '] ++ v.tf_code)

/-- A mutable store of JS arrays: references are allocation indices.
Array identity (aliasing) is what the frame-effect claims are about. -/
structure Heap where
  mem : Nat → List SItem
  next : Nat

/-- Dereference an array. -/
def heapRead (h : Heap) (r : Nat) : List SItem := h.mem r

/-- In-place mutation of the array behind `r`. -/
def heapWrite (h : Heap) (r : Nat) (v : List SItem) : Heap :=
  { h with mem := Function.update h.mem r v }

/-- Allocation of a fresh array (`map`, `filter`, `slice`,
`Object.values` all return new arrays). -/
def heapAlloc (h : Heap) (v : List SItem) : Heap × Nat :=
  ({ mem := Function.update h.mem h.next v, next := h.next + 1 }, h.next)

/-- Lexicographic character-list order standing in for
`localeCompare(..., 'fa')` (the collation does not matter to any claim;
only the sort's in-place effect and determinism do). -/
def listLe : List Char → List Char → Bool
  | [], _ => true
  | _ :: _, [] => false
  | a :: as, b :: bs => if a = b then listLe as bs else decide (a < b)

/-- `applySorting` (src/unnamed/part_000 lines 938-977): every sorting
case calls `Array.prototype.sort` on the array it receives — mutating it
in place — and returns that same array; `relevance` and unknown sort
types return the array untouched. -/
def applySortingH (h : Heap) (r : Nat) (sortType : String)
    (hasProductData : Bool) : Heap × Nat :=
  if hasProductData = false then
    if sortType = "name-asc" then
      (heapWrite h r (sortBy (fun a b => listLe (sfNameOf a) (sfNameOf b))
        (heapRead h r)), r)
    else if sortType = "name-desc" then
      (heapWrite h r (sortBy (fun a b => listLe (sfNameOf b) (sfNameOf a))
        (heapRead h r)), r)
    else (h, r)
  else
    if sortType = "price-asc" then
      (heapWrite h r (sortBy (fun a b => decide (basePriceOf a ≤ basePriceOf b))
        (heapRead h r)), r)
    else if sortType = "price-desc" then
      (heapWrite h r (sortBy (fun a b => decide (basePriceOf b ≤ basePriceOf a))
        (heapRead h r)), r)
    else if sortType = "savings-desc" then
      (heapWrite h r (sortBy (fun a b =>
        decide ((priceDiffOf b).natAbs ≤ (priceDiffOf a).natAbs))
        (heapRead h r)), r)
    else if sortType = "percent-desc" then
      (heapWrite h r (sortBy (fun a b =>
        decide (percentDiffOf b ≤ percentDiffOf a)) (heapRead h r)), r)
    else if sortType = "name-asc" then
      (heapWrite h r (sortBy (fun a b => listLe (baseNameOf a) (baseNameOf b))
        (heapRead h r)), r)
    else if sortType = "name-desc" then
      (heapWrite h r (sortBy (fun a b => listLe (baseNameOf b) (baseNameOf a))
        (heapRead h r)), r)
    else (h, r)

/-- `applyCategoryFilters` (src/unnamed/part_000 lines 915-936): with no
product data, or for an unknown category, the received array is returned
unchanged (same reference); each filtering case allocates a new array.
`if (searchManager.maxPrice)` skips the price cap when it is unset or
zero. -/
def applyCategoryFiltersH (h : Heap) (r : Nat) (category : String)
    (hasProductData : Bool) (maxPrice : Option Int)
    (favorites : List (List Char)) : Heap × Nat :=
  if hasProductData = false then (h, r)
  else if category = "tf-cheaper" then
    heapAlloc h ((heapRead h r).filter (fun it => decide (0 < priceDiffOf it)))
  else if category = "sf-cheaper" then
    heapAlloc h ((heapRead h r).filter (fun it => decide (priceDiffOf it < 0)))
  else if category = "same-price" then
    heapAlloc h ((heapRead h r).filter (fun it => decide (priceDiffOf it = 0)))
  else if category = "high-savings" then
    let p := heapAlloc h ((heapRead h r).filter
      (fun it => decide (5000 < (priceDiffOf it).natAbs)))
    match maxPrice with
    | some mp =>
        if mp ≠ 0 then
          heapAlloc p.1 ((heapRead p.1 p.2).filter
            (fun it => decide (basePriceOf it ≤ mp)))
        else p
    | none => p
  else if category = "favorites" then
    heapAlloc h ((heapRead h r).filter (fun it => decide (baseNameOf it ∈ favorites)))
  else (h, r)

/-- `performSmartSearch` in the pipeline (src/unnamed/part_000 lines
813-876): a query with no words returns the received array itself (same
reference); otherwise scoring, threshold filtering and the descending
stable sort produce a new array. -/
def performSmartSearchH (h : Heap) (r : Nat) (query : List Char)
    (hasProductData : Bool) : Heap × Nat :=
  let lowerQuery := trimL (jsToLower query)
  if splitWs lowerQuery = [] then (h, r)
  else
    heapAlloc h ((sortBy (fun a b => decide (b.2 ≤ a.2))
      (((heapRead h r).map (fun it =>
          (it, smartScore lowerQuery (searchableTextOf hasProductData it)))).filter
        (fun p => decide (5 < p.2)))).map Prod.fst)

/-- The state read and written by `performAdvancedSearch`:
`state.comparisonData` (as the list of its values), the reference held in
`state.vendorList`, and `state.searchCache` whose cached values are array
REFERENCES (the source caches the `results` array object itself). -/
structure SearchState where
  comparisonData : List CompR
  vendorListRef : Nat
  searchCache : Cache0 String Nat

/-- The search cache key, exactly
`${query}-${category}-${hasProductData}` (src/unnamed/part_000 line 759).
It does not mention the sort order or the max-price filter. -/
def cacheKeyOf (query category : String) (hasProductData : Bool) : String :=
  query ++ "-" ++ category ++ "-" ++ (if hasProductData then "true" else "false")

/-- The cache-miss pipeline of `performAdvancedSearch`
(src/unnamed/part_000 lines 762-781): start from `Object.values` of the
comparison data (a fresh array) or from `state.vendorList` itself (the
shared array), smart-search when the query is non-empty, filter, sort,
and cap at 200 results (`slice` allocates). -/
def computeResults (query category sortType : String) (maxPrice : Option Int)
    (favorites : List (List Char)) (comparisonData : List CompR)
    (vendorListRef : Nat) (hasProductData : Bool) (h : Heap) : Heap × Nat :=
  let p1 :=
    if hasProductData then heapAlloc h (comparisonData.map Sum.inl)
    else (h, vendorListRef)
  let p2 :=
    if query ≠ "" then performSmartSearchH p1.1 p1.2 query.toList hasProductData
    else p1
  let p3 := applyCategoryFiltersH p2.1 p2.2 category hasProductData maxPrice favorites
  let p4 := applySortingH p3.1 p3.2 sortType hasProductData
  if 200 < (heapRead p4.1 p4.2).length then
    heapAlloc p4.1 ((heapRead p4.1 p4.2).take 200)
  else p4

/-- `Object.keys(state.comparisonData).length > 0`. -/
def hasProductDataOf (comparisonData : List CompR) : Bool :=
  decide (comparisonData ≠ [])

/-- `performAdvancedSearch` (src/unnamed/part_000 lines 743-811), debounce
and rendering aside: consult the search cache under `cacheKeyOf`; a hit
returns the cached array reference with no recomputation; a miss runs the
pipeline and caches the resulting reference. -/
def performAdvancedSearchH (query category sortType : String)
    (maxPrice : Option Int) (favorites : List (List Char))
    (st : SearchState) (h : Heap) : Nat × SearchState × Heap :=
  let hasProductData := hasProductDataOf st.comparisonData
  let key := cacheKeyOf query category hasProductData
  let g := get0 st.searchCache key
  match g.1 with
  | some r => (r, { st with searchCache := g.2 }, h)
  | none =>
      let p := computeResults query category sortType maxPrice favorites
        st.comparisonData st.vendorListRef hasProductData h
      (p.2, { st with searchCache := set0 g.2 key p.2 }, p.1)

theorem findVal_isSome_of_mem {K V : Type} [DecidableEq K]
    {l : List (K × V)} {k : K} (h : k ∈ l.map Prod.fst) :
    (findVal l k).isSome = true := by
  induction l with
  | nil => simp at h
  | cons e rest ih =>
      obtain ⟨k₀, v₀⟩ := e
      by_cases hk : k₀ = k
      · simp [findVal, hk]
      · simp only [List.map_cons, List.mem_cons] at h
        rcases h with rfl | h'
        · exact absurd rfl hk
        · simp [findVal, hk, ih h']

theorem nodup_keys_append_single {K V : Type} [DecidableEq K]
    {l : List (K × V)} {k : K} {v : V}
    (hnd : (l.map Prod.fst).Nodup) (hk : findVal l k = none) :
    ((l ++ [(k, v)]).map Prod.fst).Nodup := by
  rw [List.map_append, List.nodup_append]
  refine ⟨hnd, by simp, ?_⟩
  intro a ha hb
  simp only [List.map_cons, List.map_nil, List.mem_cons, List.not_mem_nil,
    or_false] at hb
  subst hb
  have hs := findVal_isSome_of_mem ha
  rw [hk] at hs
  cases hs

theorem nodup_keys_get0 {K V : Type} [DecidableEq K] {c : Cache0 K V} {k : K}
    (hnd : (c.cache.map Prod.fst).Nodup) :
    ((get0 c k).2.cache.map Prod.fst).Nodup := by
  cases hf : findVal c.cache k with
  | none => simpa [get0, hf] using hnd
  | some v =>
      simp only [get0, hf]
      exact nodup_keys_append_single
        (((eraseKey_sublist c.cache k).map Prod.fst).nodup hnd)
        (findVal_eraseKey_self hnd k)

theorem nodup_keys_set0 {K V : Type} [DecidableEq K] {c : Cache0 K V} {k : K}
    (v : V) (hnd : (c.cache.map Prod.fst).Nodup) :
    ((set0 c k v).cache.map Prod.fst).Nodup := by
  by_cases hf : (findVal c.cache k).isSome = true
  · simp only [set0, hf, if_true]
    exact nodup_keys_append_single
      (((eraseKey_sublist c.cache k).map Prod.fst).nodup hnd)
      (findVal_eraseKey_self hnd k)
  · have hf' : findVal c.cache k = none := by
      cases hfe : findVal c.cache k
      · rfl
      · rw [hfe] at hf; simp at hf
    by_cases hcap : c.maxSize ≤ c.cache.length
    · simp only [set0, hf', Option.isSome_none, Bool.false_eq_true, if_false,
        if_pos hcap]
      exact nodup_keys_append_single
        (((List.tail_sublist c.cache).map Prod.fst).nodup hnd)
        (findVal_tail_eq_none hf')
    · simp only [set0, hf', Option.isSome_none, Bool.false_eq_true, if_false,
        if_neg hcap]
      exact nodup_keys_append_single hnd hf'

theorem findVal_get0_hit {K V : Type} [DecidableEq K] {c : Cache0 K V}
    {k : K} {v : V} (hnd : (c.cache.map Prod.fst).Nodup)
    (hf : findVal c.cache k = some v) :
    findVal (get0 c k).2.cache k = some v := by
  simp only [get0, hf]
  rw [findVal_append, findVal_eraseKey_self hnd]
  simp [findVal]

theorem findVal_set0_self {K V : Type} [DecidableEq K] {c : Cache0 K V}
    {k : K} (v : V) (hnd : (c.cache.map Prod.fst).Nodup) :
    findVal (set0 c k v).cache k = some v := by
  by_cases hf : (findVal c.cache k).isSome = true
  · simp only [set0, hf, if_true]
    rw [findVal_append, findVal_eraseKey_self hnd]
    simp [findVal]
  · have hf' : findVal c.cache k = none := by
      cases hfe : findVal c.cache k
      · rfl
      · rw [hfe] at hf; simp at hf
    by_cases hcap : c.maxSize ≤ c.cache.length
    · simp only [set0, hf', Option.isSome_none, Bool.false_eq_true, if_false,
        if_pos hcap]
      rw [findVal_append, findVal_tail_eq_none hf']
      simp [findVal]
    · simp only [set0, hf', Option.isSome_none, Bool.false_eq_true, if_false,
        if_neg hcap]
      rw [findVal_append, hf']
      simp [findVal]



theorem adv_hit (query category sortType : String) (mp : Option Int)
    (fav : List (List Char)) (st : SearchState) (h : Heap) (r : Nat)
    (hf : findVal st.searchCache.cache
        (cacheKeyOf query category (hasProductDataOf st.comparisonData))
          = some r) :
    (performAdvancedSearchH query category sortType mp fav st h).1 = r ∧
    (performAdvancedSearchH query category sortType mp fav st h).2.2 = h ∧
    (performAdvancedSearchH query category sortType mp fav st h).2.1.comparisonData
      = st.comparisonData ∧
    (performAdvancedSearchH query category sortType mp fav st h).2.1.vendorListRef
      = st.vendorListRef ∧
    (performAdvancedSearchH query category sortType mp fav st h).2.1.searchCache
      = (get0 st.searchCache
          (cacheKeyOf query category (hasProductDataOf st.comparisonData))).2 := by
  refine ⟨?_, ?_, ?_, ?_, ?_⟩ <;>
    simp only [performAdvancedSearchH, get0, hf]

theorem adv_miss (query category sortType : String) (mp : Option Int)
    (fav : List (List Char)) (st : SearchState) (h : Heap)
    (hf : findVal st.searchCache.cache
        (cacheKeyOf query category (hasProductDataOf st.comparisonData))
          = none) :
    (performAdvancedSearchH query category sortType mp fav st h).1
      = (computeResults query category sortType mp fav st.comparisonData
          st.vendorListRef (hasProductDataOf st.comparisonData) h).2 ∧
    (performAdvancedSearchH query category sortType mp fav st h).2.2
      = (computeResults query category sortType mp fav st.comparisonData
          st.vendorListRef (hasProductDataOf st.comparisonData) h).1 ∧
    (performAdvancedSearchH query category sortType mp fav st h).2.1.comparisonData
      = st.comparisonData ∧
    (performAdvancedSearchH query category sortType mp fav st h).2.1.vendorListRef
      = st.vendorListRef ∧
    (performAdvancedSearchH query category sortType mp fav st h).2.1.searchCache
      = set0 (get0 st.searchCache
            (cacheKeyOf query category (hasProductDataOf st.comparisonData))).2
          (cacheKeyOf query category (hasProductDataOf st.comparisonData))
          (computeResults query category sortType mp fav st.comparisonData
            st.vendorListRef (hasProductDataOf st.comparisonData) h).2 := by
  refine ⟨?_, ?_, ?_, ?_, ?_⟩ <;>
    simp only [performAdvancedSearchH, get0, hf]

/-- C8: two consecutive searches with equal query, category and
product-data presence but different sort orders and max-price filters:
the second search returns the first search's cached array unchanged (the
same reference, and the second call leaves the heap untouched, so the new
sort order and max-price filter are not applied to it), because the cache
key `${query}-${category}-${hasProductData}` omits them both and the
cache-hit path recomputes nothing. -/
theorem staleSortAndPrice_cached (query category sort1 sort2 : String)
    (mp1 mp2 : Option Int) (fav1 fav2 : List (List Char))
    (st : SearchState) (h : Heap)
    (hnd : (st.searchCache.cache.map Prod.fst).Nodup) :
    (performAdvancedSearchH query category sort2 mp2 fav2
        (performAdvancedSearchH query category sort1 mp1 fav1 st h).2.1
        (performAdvancedSearchH query category sort1 mp1 fav1 st h).2.2).1
      = (performAdvancedSearchH query category sort1 mp1 fav1 st h).1 ∧
    (performAdvancedSearchH query category sort2 mp2 fav2
        (performAdvancedSearchH query category sort1 mp1 fav1 st h).2.1
        (performAdvancedSearchH query category sort1 mp1 fav1 st h).2.2).2.2
      = (performAdvancedSearchH query category sort1 mp1 fav1 st h).2.2 := by
  cases hf : findVal st.searchCache.cache
      (cacheKeyOf query category (hasProductDataOf st.comparisonData)) with
  | some r =>
      obtain ⟨e1, e2, e3, _, e5⟩ := adv_hit query category sort1 mp1 fav1 st h r hf
      have hf1 : findVal (performAdvancedSearchH query category sort1 mp1 fav1
            st h).2.1.searchCache.cache
          (cacheKeyOf query category (hasProductDataOf
            (performAdvancedSearchH query category sort1 mp1 fav1
              st h).2.1.comparisonData)) = some r := by
        rw [e3, e5]
        exact findVal_get0_hit hnd hf
      obtain ⟨f1, f2, _, _, _⟩ := adv_hit query category sort2 mp2 fav2
        (performAdvancedSearchH query category sort1 mp1 fav1 st h).2.1
        (performAdvancedSearchH query category sort1 mp1 fav1 st h).2.2 r hf1
      exact ⟨by rw [f1, e1], f2⟩
  | none =>
      obtain ⟨e1, e2, e3, _, e5⟩ := adv_miss query category sort1 mp1 fav1 st h hf
      have hc1 : (get0 st.searchCache
          (cacheKeyOf query category (hasProductDataOf st.comparisonData))).2.cache
            = st.searchCache.cache := by
        simp only [get0, hf]
      have hf2 : findVal (performAdvancedSearchH query category sort1 mp1 fav1
            st h).2.1.searchCache.cache
          (cacheKeyOf query category (hasProductDataOf
            (performAdvancedSearchH query category sort1 mp1 fav1
              st h).2.1.comparisonData))
        = some (computeResults query category sort1 mp1 fav1 st.comparisonData
            st.vendorListRef (hasProductDataOf st.comparisonData) h).2 := by
        rw [e3, e5]
        exact findVal_set0_self _ (by rw [hc1]; exact hnd)
      obtain ⟨f1, f2, _, _, _⟩ := adv_hit query category sort2 mp2 fav2
        (performAdvancedSearchH query category sort1 mp1 fav1 st h).2.1
        (performAdvancedSearchH query category sort1 mp1 fav1 st h).2.2 _ hf2
      exact ⟨by rw [f1, e1], f2⟩

/-- Witness for C8 at a concrete empty state: a relevance-sorted first
search followed by a name-sorted second search returns the same array
reference and leaves the heap untouched. -/
theorem staleSortAndPrice_cached_witness :
    (performAdvancedSearchH "" "all" "name-asc" (some 5000) []
        (performAdvancedSearchH "" "all" "relevance" none []
          (SearchState.mk [] 0 (emptyCache0 String Nat 200))
          (Heap.mk (fun _ => []) 1)).2.1
        (performAdvancedSearchH "" "all" "relevance" none []
          (SearchState.mk [] 0 (emptyCache0 String Nat 200))
          (Heap.mk (fun _ => []) 1)).2.2).1
      = (performAdvancedSearchH "" "all" "relevance" none []
          (SearchState.mk [] 0 (emptyCache0 String Nat 200))
          (Heap.mk (fun _ => []) 1)).1 ∧
    (performAdvancedSearchH "" "all" "name-asc" (some 5000) []
        (performAdvancedSearchH "" "all" "relevance" none []
          (SearchState.mk [] 0 (emptyCache0 String Nat 200))
          (Heap.mk (fun _ => []) 1)).2.1
        (performAdvancedSearchH "" "all" "relevance" none []
          (SearchState.mk [] 0 (emptyCache0 String Nat 200))
          (Heap.mk (fun _ => []) 1)).2.2).2.2
      = (performAdvancedSearchH "" "all" "relevance" none []
          (SearchState.mk [] 0 (emptyCache0 String Nat 200))
          (Heap.mk (fun _ => []) 1)).2.2 :=
  staleSortAndPrice_cached "" "all" "relevance" "name-asc" none (some 5000)
    [] [] (SearchState.mk [] 0 (emptyCache0 String Nat 200))
    (Heap.mk (fun _ => []) 1) (by simp [emptyCache0_cache])

theorem insertBy_length {α : Type} (le : α → α → Bool) (x : α) :
    ∀ l : List α, (insertBy le x l).length = l.length + 1 := by
  intro l
  induction l with
  | nil => rfl
  | cons y ys ih =>
      by_cases h : le x y = true
      · simp [insertBy, h]
      · simp [insertBy, h, ih]

theorem sortBy_length {α : Type} (le : α → α → Bool) :
    ∀ l : List α, (sortBy le l).length = l.length := by
  intro l
  induction l with
  | nil => rfl
  | cons y ys ih => simp [sortBy, insertBy_length, ih]

theorem computeResults_vendor_inplace (mp : Option Int)
    (fav : List (List Char)) (vendorListRef : Nat) (h : Heap)
    (hlen : (h.mem vendorListRef).length ≤ 200) :
    computeResults "" "all" "name-asc" mp fav [] vendorListRef false h
      = (heapWrite h vendorListRef
          (sortBy (fun a b => listLe (sfNameOf a) (sfNameOf b))
            (h.mem vendorListRef)), vendorListRef) := by
  have hsort : applySortingH h vendorListRef "name-asc" false
      = (heapWrite h vendorListRef
          (sortBy (fun a b => listLe (sfNameOf a) (sfNameOf b))
            (h.mem vendorListRef)), vendorListRef) := by
    simp +decide [applySortingH, heapRead]
  have hfilter : applyCategoryFiltersH h vendorListRef "all" false mp fav
      = (h, vendorListRef) := by
    simp +decide [applyCategoryFiltersH]
  have hlen2 : ¬(200 < (heapRead (heapWrite h vendorListRef
      (sortBy (fun a b => listLe (sfNameOf a) (sfNameOf b))
        (h.mem vendorListRef))) vendorListRef).length) := by
    simp only [heapRead, heapWrite, Function.update_same]
    rw [sortBy_length]
    omega
  simp only [computeResults, Bool.false_eq_true, if_false,
    ne_eq, not_true_eq_false, hfilter, hsort, if_neg hlen2]

/-- C9: `applySorting` sorts the array it receives in place and returns
that same array rather than a copy: the returned reference is the
argument reference, no other array is touched, and the vendor name sort
leaves the sorted list behind the original reference.  In particular, a
search with empty query, category `all` and no product data pipes
`state.vendorList` itself through the pipeline, so a name sort
permanently reorders the shared vendor list (and the search cache ends up
holding that same reference). -/
theorem applySorting_inplace :
    (∀ (h : Heap) (r : Nat) (sortType : String) (hpd : Bool),
        (applySortingH h r sortType hpd).2 = r) ∧
    (∀ (h : Heap) (r : Nat) (sortType : String) (hpd : Bool) (r' : Nat),
        r' ≠ r → (applySortingH h r sortType hpd).1.mem r' = h.mem r') ∧
    (∀ (h : Heap) (r : Nat),
        (applySortingH h r "name-asc" false).1.mem r
          = sortBy (fun a b => listLe (sfNameOf a) (sfNameOf b)) (h.mem r)) ∧
    (∀ (mp : Option Int) (fav : List (List Char)) (st : SearchState) (h : Heap),
        (st.searchCache.cache.map Prod.fst).Nodup →
        st.comparisonData = [] →
        findVal st.searchCache.cache (cacheKeyOf "" "all" false) = none →
        (h.mem st.vendorListRef).length ≤ 200 →
        (performAdvancedSearchH "" "all" "name-asc" mp fav st h).1
            = st.vendorListRef ∧
        (performAdvancedSearchH "" "all" "name-asc" mp fav st h).2.2.mem
            st.vendorListRef
          = sortBy (fun a b => listLe (sfNameOf a) (sfNameOf b))
              (h.mem st.vendorListRef) ∧
        findVal (performAdvancedSearchH "" "all" "name-asc" mp fav
              st h).2.1.searchCache.cache (cacheKeyOf "" "all" false)
          = some st.vendorListRef) := by
  refine ⟨?_, ?_, ?_, ?_⟩
  · intro h r sortType hpd
    unfold applySortingH
    split_ifs <;> rfl
  · intro h r sortType hpd r' hne
    unfold applySortingH
    split_ifs <;>
      simp [heapWrite, Function.update_noteq hne]
  · intro h r
    simp +decide [applySortingH, heapWrite, heapRead, Function.update_same]
  · intro mp fav st h hnd hcd hf hlen
    have hpd : hasProductDataOf st.comparisonData = false := by
      rw [hcd]; rfl
    have hf' : findVal st.searchCache.cache
        (cacheKeyOf "" "all" (hasProductDataOf st.comparisonData)) = none := by
      rw [hpd]; exact hf
    obtain ⟨e1, e2, e3, e4, e5⟩ := adv_miss "" "all" "name-asc" mp fav st h hf'
    rw [hpd, hcd] at e1 e2 e5
    rw [computeResults_vendor_inplace mp fav st.vendorListRef h hlen]
      at e1 e2 e5
    have hc1 : (get0 st.searchCache
        (cacheKeyOf "" "all" (hasProductDataOf st.comparisonData))).2.cache
          = st.searchCache.cache := by
      simp only [get0, hf']
    rw [hpd] at hc1
    refine ⟨by rw [e1], ?_, ?_⟩
    · rw [e2]
      simp [heapWrite, Function.update_same]
    · rw [e5]
      exact findVal_set0_self _ (by rw [hc1]; exact hnd)

/-- Witness for C9: a two-element vendor list stored behind reference 0
is permanently reordered by a name sort issued through the search
pipeline, and frame: a sort on reference 0 does not touch reference 1. -/
theorem applySorting_inplace_witness :
    ((applySortingH (Heap.mk (fun r => if r = 0
          then [Sum.inr (VendorM.mk [] ['b'] [] []),
                Sum.inr (VendorM.mk [] ['a'] [] [])] else []) 1)
        0 "name-asc" false).1.mem 1
      = (Heap.mk (fun r => if r = 0
          then [Sum.inr (VendorM.mk [] ['b'] [] []),
                Sum.inr (VendorM.mk [] ['a'] [] [])] else []) 1).mem 1) ∧
    ((performAdvancedSearchH "" "all" "name-asc" none []
        (SearchState.mk [] 0 (emptyCache0 String Nat 200))
        (Heap.mk (fun r => if r = 0
          then [Sum.inr (VendorM.mk [] ['b'] [] []),
                Sum.inr (VendorM.mk [] ['a'] [] [])] else []) 1)).1 = 0 ∧
     (performAdvancedSearchH "" "all" "name-asc" none []
        (SearchState.mk [] 0 (emptyCache0 String Nat 200))
        (Heap.mk (fun r => if r = 0
          then [Sum.inr (VendorM.mk [] ['b'] [] []),
                Sum.inr (VendorM.mk [] ['a'] [] [])] else []) 1)).2.2.mem 0
       = sortBy (fun a b => listLe (sfNameOf a) (sfNameOf b))
           ((Heap.mk (fun r => if r = 0
              then [Sum.inr (VendorM.mk [] ['b'] [] []),
                    Sum.inr (VendorM.mk [] ['a'] [] [])] else []) 1).mem 0) ∧
     findVal (performAdvancedSearchH "" "all" "name-asc" none []
          (SearchState.mk [] 0 (emptyCache0 String Nat 200))
          (Heap.mk (fun r => if r = 0
            then [Sum.inr (VendorM.mk [] ['b'] [] []),
                  Sum.inr (VendorM.mk [] ['a'] [] [])] else []) 1)).2.1.searchCache.cache
        (cacheKeyOf "" "all" false) = some 0) :=
  ⟨applySorting_inplace.2.1
      (Heap.mk (fun r => if r = 0
        then [Sum.inr (VendorM.mk [] ['b'] [] []),
              Sum.inr (VendorM.mk [] ['a'] [] [])] else []) 1)
      0 "name-asc" false 1 (by decide),
   applySorting_inplace.2.2.2 none []
      (SearchState.mk [] 0 (emptyCache0 String Nat 200))
      (Heap.mk (fun r => if r = 0
        then [Sum.inr (VendorM.mk [] ['b'] [] []),
              Sum.inr (VendorM.mk [] ['a'] [] [])] else []) 1)
      (by simp [emptyCache0_cache]) rfl (by simp [emptyCache0_cache, findVal])
      (by simp)⟩
